import Mathlib

/-!
Verification of the bitdata bit-packing library.

The Go source packs values of width 1..64 bits contiguously into a byte
sequence (LSB-first within each byte) and unpacks them in order.  Machine
integers of the source are modelled as `Nat` with explicit reductions
modulo `2 ^ w` (`w` the container width), Go `int8` intermediates as `Int`,
and byte buffers as `List Nat` whose entries are below 256.
-/

namespace BitData

/-- Errors returned by reader operations: `io.ErrUnexpectedEOF` and
`ErrBitCountTooBig` of the source. -/
inductive Err where
  | unexpectedEndOfData : Err
  | bitCountTooBig : Err
deriving DecidableEq

instance {ε α : Type} [DecidableEq ε] [DecidableEq α] : DecidableEq (Except ε α) := fun a b =>
  match a, b with
  | Except.ok x, Except.ok y =>
    if h : x = y then Decidable.isTrue (congrArg Except.ok h)
    else Decidable.isFalse (fun hc => h (Except.ok.inj hc))
  | Except.error x, Except.error y =>
    if h : x = y then Decidable.isTrue (congrArg Except.error h)
    else Decidable.isFalse (fun hc => h (Except.error.inj hc))
  | Except.ok _, Except.error _ => Decidable.isFalse (fun hc => Except.noConfusion hc)
  | Except.error _, Except.ok _ => Decidable.isFalse (fun hc => Except.noConfusion hc)

/-- Reinterpretation of a Go `byte` value as a Go `int8`, as in the source's
cast `int8(bitCount)`: values 128..255 wrap to negatives. -/
def int8 (b : Nat) : Int := if b % 256 < 128 then ((b % 256 : Nat) : Int) else ((b % 256 : Nat) : Int) - 256

/-- The generic `mask` helper of the source: `T(1)<<n - 1` evaluated in the
`w`-bit unsigned type `T`, where the shift truncates modulo `2 ^ w` and the
subtraction of 1 wraps modulo `2 ^ w` (so `mask w w` is all ones, not 0). -/
def mask (w n : Nat) : Nat := (2 ^ w + (1 <<< n) % 2 ^ w - 1) % 2 ^ w

/-- The `Writer` of the source: a growable byte buffer plus the running
count of bits written. -/
structure Writer where
  data : List Nat
  bitsWritten : Nat
deriving DecidableEq

/-- `NewWriter`: empty buffer, zero bits written. -/
def NewWriter : Writer := { data := [], bitsWritten := 0 }

/-- `Writer.BitData`: the byte buffer produced so far. -/
def Writer.BitData (wr : Writer) : List Nat := wr.data

/-- The byte-appending loop of `write` with an explicit bound `fuel` on the
number of iterations, making the recursion structural: while bits remain,
append the low byte of `value`, shift `value` right by 8 and decrease the
remaining count by 8. -/
def writeLoopAux (fuel : Nat) (data : List Nat) (value : Nat) (bitsRemain : Int) : List Nat :=
  match fuel with
  | 0 => data
  | fuel + 1 =>
    if 0 < bitsRemain then
      writeLoopAux fuel (data ++ [value % 256]) (value >>> 8) (bitsRemain - 8)
    else
      data

/-- The byte-appending loop of `write`.  Each iteration decreases
`bitsRemain` by 8, so `bitsRemain.toNat` iterations always suffice. -/
def writeLoop (data : List Nat) (value : Nat) (bitsRemain : Int) : List Nat :=
  writeLoopAux bitsRemain.toNat data value bitsRemain

/-- The generic `write` of the source for container width `w`: mask the
value to its low `bitCount` bits, OR the low `8-ofs` bits into the current
partial byte when the cursor is not byte-aligned, then append whole bytes
while bits remain, and finally advance the cursor by `bitCount`. -/
def write (w : Nat) (wr : Writer) (value bitCount : Nat) : Writer :=
  if bitCount = 0 then wr
  else
    let value1 := value &&& mask w bitCount
    let idx := wr.bitsWritten / 8
    let ofs := wr.bitsWritten % 8
    let bitsRemain : Int := int8 bitCount
    if 0 < ofs then
      let data1 := wr.data.set idx ((wr.data.getD idx 0) ||| ((value1 <<< ofs) % 2 ^ w) % 256)
      { data := writeLoop data1 (value1 >>> (8 - ofs)) (bitsRemain - int8 (8 - ofs)),
        bitsWritten := wr.bitsWritten + bitCount }
    else
      { data := writeLoop wr.data value1 bitsRemain,
        bitsWritten := wr.bitsWritten + bitCount }

/-- `Writer.WriteBool`: writes one bit, 1 for `true` and 0 for `false`,
through the byte instance of the generic `write`. -/
def Writer.WriteBool (wr : Writer) (v : Bool) : Writer :=
  if v then write 8 wr 1 1 else write 8 wr 0 1

/-- `Writer.Write8`: the `uint8` instance of `write`. -/
def Writer.Write8 (wr : Writer) (v bitCount : Nat) : Writer :=
  write 8 wr (v % 2 ^ 8) (bitCount % 256)

/-- `Writer.Write16`: the `uint16` instance of `write`. -/
def Writer.Write16 (wr : Writer) (v bitCount : Nat) : Writer :=
  write 16 wr (v % 2 ^ 16) (bitCount % 256)

/-- `Writer.Write32`: the `uint32` instance of `write`. -/
def Writer.Write32 (wr : Writer) (v bitCount : Nat) : Writer :=
  write 32 wr (v % 2 ^ 32) (bitCount % 256)

/-- `Writer.Write64`: the `uint64` instance of `write`. -/
def Writer.Write64 (wr : Writer) (v bitCount : Nat) : Writer :=
  write 64 wr (v % 2 ^ 64) (bitCount % 256)

/-- The `Reader` of the source: a fixed byte buffer plus the running count
of bits consumed. -/
structure Reader where
  data : List Nat
  bitsRead : Nat
deriving DecidableEq

/-- `NewReader`: reader over `data` with cursor 0. -/
def NewReader (data : List Nat) : Reader := { data := data, bitsRead := 0 }

/-- `Reader.Skip`: unconditionally advances the cursor, without any bounds
check. -/
def Reader.Skip (r : Reader) (bitCount : Nat) : Reader :=
  { r with bitsRead := r.bitsRead + bitCount }

/-- The whole-byte loop of the generic `read` with an explicit bound `fuel`
on the number of iterations, making the recursion structural: while bits
remain, bounds check the byte index, OR the masked byte (shifted into
position `bitsRead`) into the accumulator, and advance. -/
def readLoopAux (w fuel : Nat) (data : List Nat) (value idx bitsRead : Nat) (bitsRemain : Int) : Except Err Nat :=
  match fuel with
  | 0 => Except.ok value
  | fuel + 1 =>
    if 0 < bitsRemain then
      if data.length ≤ idx then Except.error Err.unexpectedEndOfData
      else
        let v := ((data.getD idx 0) <<< bitsRead) % 2 ^ w
        let m := ((mask w (bitsRemain.toNat % 256)) <<< bitsRead) % 2 ^ w
        readLoopAux w fuel data (value ||| (v &&& m)) (idx + 1) ((bitsRead + 8) % 256) (bitsRemain - 8)
    else
      Except.ok value

/-- The whole-byte loop of the generic `read`.  Each iteration decreases
`bitsRemain` by 8, so `bitsRemain.toNat` iterations always suffice. -/
def readLoop (w : Nat) (data : List Nat) (value idx bitsRead : Nat) (bitsRemain : Int) : Except Err Nat :=
  readLoopAux w bitsRemain.toNat data value idx bitsRead bitsRemain

/-- The generic `read` of the source for container width `w`: zero bits
reads as 0; otherwise the partial first byte (when the cursor is not
byte-aligned) and then whole bytes are consumed, each after a bounds check
failing with `unexpectedEndOfData`; the cursor advances by `bitCount` only
on success. -/
def read (w : Nat) (r : Reader) (bitCount : Nat) : Except Err Nat × Reader :=
  if bitCount = 0 then (Except.ok 0, r)
  else
    let idx := r.bitsRead / 8
    let ofs := r.bitsRead % 8
    let bitsRemain : Int := int8 bitCount
    if 0 < ofs then
      if r.data.length ≤ idx then (Except.error Err.unexpectedEndOfData, r)
      else
        let value := ((r.data.getD idx 0) >>> ofs) &&& mask w bitCount
        match readLoop w r.data value (idx + 1) (8 - ofs) (bitsRemain - int8 (8 - ofs)) with
        | Except.ok v => (Except.ok v, { r with bitsRead := r.bitsRead + bitCount })
        | Except.error e => (Except.error e, r)
    else
      match readLoop w r.data 0 idx 0 bitsRemain with
      | Except.ok v => (Except.ok v, { r with bitsRead := r.bitsRead + bitCount })
      | Except.error e => (Except.error e, r)

/-- `Reader.ReadBool`: reads one bit through the byte instance of `read`
and compares it with zero. -/
def Reader.ReadBool (r : Reader) : Except Err Bool × Reader :=
  match read 8 r 1 with
  | (Except.ok v, r1) => (Except.ok (decide (v ≠ 0)), r1)
  | (Except.error e, r1) => (Except.error e, r1)

/-- `Reader.Read8`: fails with `bitCountTooBig` when more than 8 bits are
requested, otherwise the `uint8` instance of `read`. -/
def Reader.Read8 (r : Reader) (bitCount : Nat) : Except Err Nat × Reader :=
  if 8 < bitCount % 256 then (Except.error Err.bitCountTooBig, r)
  else read 8 r (bitCount % 256)

/-- `Reader.Read16`: guard at 16 bits, then the `uint16` instance of `read`. -/
def Reader.Read16 (r : Reader) (bitCount : Nat) : Except Err Nat × Reader :=
  if 16 < bitCount % 256 then (Except.error Err.bitCountTooBig, r)
  else read 16 r (bitCount % 256)

/-- `Reader.Read32`: guard at 32 bits, then the `uint32` instance of `read`. -/
def Reader.Read32 (r : Reader) (bitCount : Nat) : Except Err Nat × Reader :=
  if 32 < bitCount % 256 then (Except.error Err.bitCountTooBig, r)
  else read 32 r (bitCount % 256)

/-- `Reader.Read64`: guard at 64 bits, then the `uint64` instance of `read`. -/
def Reader.Read64 (r : Reader) (bitCount : Nat) : Except Err Nat × Reader :=
  if 64 < bitCount % 256 then (Except.error Err.bitCountTooBig, r)
  else read 64 r (bitCount % 256)

/-- The sticky `ReaderError` of the source: a wrapped `Reader` plus at most
one stored error. -/
structure ReaderError where
  reader : Reader
  err : Option Err
deriving DecidableEq

/-- `NewReaderError`: fresh reader, no stored error. -/
def NewReaderError (data : List Nat) : ReaderError :=
  { reader := NewReader data, err := none }

/-- `ReaderError.Error`: the stored error, if any. -/
def ReaderError.Error (r : ReaderError) : Option Err := r.err

/-- `ReaderError.Skip`: always delegates to the wrapped reader. -/
def ReaderError.Skip (r : ReaderError) (bitCount : Nat) : ReaderError :=
  { r with reader := r.reader.Skip bitCount }

/-- `ReaderError.ReadBool`: delegates only while no error is stored;
a failure stores the error; afterwards reads return `false`. -/
def ReaderError.ReadBool (r : ReaderError) : Bool × ReaderError :=
  match r.err with
  | none =>
    match r.reader.ReadBool with
    | (Except.ok v, rd) => (v, { reader := rd, err := none })
    | (Except.error e, rd) => (false, { reader := rd, err := some e })
  | some _ => (false, r)

/-- `ReaderError.Read8`: delegates only while no error is stored. -/
def ReaderError.Read8 (r : ReaderError) (bitCount : Nat) : Nat × ReaderError :=
  match r.err with
  | none =>
    match r.reader.Read8 bitCount with
    | (Except.ok v, rd) => (v, { reader := rd, err := none })
    | (Except.error e, rd) => (0, { reader := rd, err := some e })
  | some _ => (0, r)

/-- `ReaderError.Read16`: delegates only while no error is stored. -/
def ReaderError.Read16 (r : ReaderError) (bitCount : Nat) : Nat × ReaderError :=
  match r.err with
  | none =>
    match r.reader.Read16 bitCount with
    | (Except.ok v, rd) => (v, { reader := rd, err := none })
    | (Except.error e, rd) => (0, { reader := rd, err := some e })
  | some _ => (0, r)

/-- `ReaderError.Read32`: delegates only while no error is stored. -/
def ReaderError.Read32 (r : ReaderError) (bitCount : Nat) : Nat × ReaderError :=
  match r.err with
  | none =>
    match r.reader.Read32 bitCount with
    | (Except.ok v, rd) => (v, { reader := rd, err := none })
    | (Except.error e, rd) => (0, { reader := rd, err := some e })
  | some _ => (0, r)

/-- `ReaderError.Read64`: delegates only while no error is stored. -/
def ReaderError.Read64 (r : ReaderError) (bitCount : Nat) : Nat × ReaderError :=
  match r.err with
  | none =>
    match r.reader.Read64 bitCount with
    | (Except.ok v, rd) => (v, { reader := rd, err := none })
    | (Except.error e, rd) => (0, { reader := rd, err := some e })
  | some _ => (0, r)

/-- The number whose base-256 little-endian digits are the buffer's bytes:
byte `i` holds stream bit positions `8*i .. 8*i+7`. -/
def bytesToNat : List Nat → Nat
  | [] => 0
  | b :: rest => b + 256 * bytesToNat rest

/-- Bit `i` of a byte sequence: bit `i % 8` of byte `i / 8` (0 when that
byte does not exist). -/
def streamBit (data : List Nat) (i : Nat) : Nat :=
  ((data.getD (i / 8) 0) >>> (i % 8)) % 2

/-- A buffer whose entries are genuine bytes. -/
abbrev ByteSeq (data : List Nat) : Prop := ∀ b ∈ data, b < 256

/-- One typed write operation: container plus value plus bit count. -/
inductive WOp where
  | wbool : Bool → WOp
  | w8 : Nat → Nat → WOp
  | w16 : Nat → Nat → WOp
  | w32 : Nat → Nat → WOp
  | w64 : Nat → Nat → WOp
deriving DecidableEq

/-- Performs one write operation on a writer. -/
def wstep (wr : Writer) : WOp → Writer
  | WOp.wbool v => wr.WriteBool v
  | WOp.w8 v n => wr.Write8 v n
  | WOp.w16 v n => wr.Write16 v n
  | WOp.w32 v n => wr.Write32 v n
  | WOp.w64 v n => wr.Write64 v n

/-- Performs a sequence of write operations. -/
def wrun (wr : Writer) (ops : List WOp) : Writer := ops.foldl wstep wr

/-- The container width of an operation (`WriteBool` writes through the
byte instance). -/
def WOp.width : WOp → Nat
  | WOp.wbool _ => 8
  | WOp.w8 _ _ => 8
  | WOp.w16 _ _ => 16
  | WOp.w32 _ _ => 32
  | WOp.w64 _ _ => 64

/-- The bit count of an operation. -/
def WOp.bits : WOp → Nat
  | WOp.wbool _ => 1
  | WOp.w8 _ n => n
  | WOp.w16 _ n => n
  | WOp.w32 _ n => n
  | WOp.w64 _ n => n

/-- The value passed to an operation. -/
def WOp.value : WOp → Nat
  | WOp.wbool v => if v then 1 else 0
  | WOp.w8 v _ => v
  | WOp.w16 v _ => v
  | WOp.w32 v _ => v
  | WOp.w64 v _ => v

/-- Total number of bits written by a sequence of operations. -/
def totalBits (ops : List WOp) : Nat := (ops.map WOp.bits).sum

/-- The packed integer a sequence of operations denotes: each value,
masked to its bit count, in order from least significant. -/
def encOps : List WOp → Nat
  | [] => 0
  | op :: ops => op.value % 2 ^ op.bits + encOps ops * 2 ^ op.bits

/-- Reads a sequence of operations back with the matching read calls and
bit counts, checking every read succeeds with the operation's value. -/
def readOps (r : Reader) : List WOp → Bool
  | [] => true
  | WOp.wbool v :: ops =>
    match r.ReadBool with
    | (Except.ok v1, r1) => v1 == v && readOps r1 ops
    | (Except.error _, _) => false
  | WOp.w8 v n :: ops =>
    match r.Read8 n with
    | (Except.ok v1, r1) => v1 == v && readOps r1 ops
    | (Except.error _, _) => false
  | WOp.w16 v n :: ops =>
    match r.Read16 n with
    | (Except.ok v1, r1) => v1 == v && readOps r1 ops
    | (Except.error _, _) => false
  | WOp.w32 v n :: ops =>
    match r.Read32 n with
    | (Except.ok v1, r1) => v1 == v && readOps r1 ops
    | (Except.error _, _) => false
  | WOp.w64 v n :: ops =>
    match r.Read64 n with
    | (Except.ok v1, r1) => v1 == v && readOps r1 ops
    | (Except.error _, _) => false

/-- Validity of a write operation for the round-trip statement: bit count
between 1 and the container width, value already masked to the bit count. -/
def WOp.valid : WOp → Prop
  | WOp.wbool _ => True
  | WOp.w8 v n => 1 ≤ n ∧ n ≤ 8 ∧ v < 2 ^ n
  | WOp.w16 v n => 1 ≤ n ∧ n ≤ 16 ∧ v < 2 ^ n
  | WOp.w32 v n => 1 ≤ n ∧ n ≤ 32 ∧ v < 2 ^ n
  | WOp.w64 v n => 1 ≤ n ∧ n ≤ 64 ∧ v < 2 ^ n

instance : DecidablePred WOp.valid := fun op =>
  match op with
  | WOp.wbool _ => Decidable.isTrue trivial
  | WOp.w8 v n => inferInstanceAs (Decidable (1 ≤ n ∧ n ≤ 8 ∧ v < 2 ^ n))
  | WOp.w16 v n => inferInstanceAs (Decidable (1 ≤ n ∧ n ≤ 16 ∧ v < 2 ^ n))
  | WOp.w32 v n => inferInstanceAs (Decidable (1 ≤ n ∧ n ≤ 32 ∧ v < 2 ^ n))
  | WOp.w64 v n => inferInstanceAs (Decidable (1 ≤ n ∧ n ≤ 64 ∧ v < 2 ^ n))

/-- The observable outcome a read of `n` bits must have on reader `r`
according to the end-of-data contract: success exactly when `n` bits
remain, `unexpectedEndOfData` exactly otherwise, cursor advanced by `n` on
success and untouched on failure. -/
def readOutcome {α : Type} (r : Reader) (n : Nat) (res : Except Err α × Reader) : Prop :=
  ((∃ v, res.1 = Except.ok v) ↔ r.bitsRead + n ≤ 8 * r.data.length) ∧
  (res.1 = Except.error Err.unexpectedEndOfData ↔ 8 * r.data.length < r.bitsRead + n) ∧
  res.2 = (if r.bitsRead + n ≤ 8 * r.data.length then { r with bitsRead := r.bitsRead + n } else r)

/-- One read operation on the sticky reader (`Skip` is not a read). -/
inductive SOp where
  | sbool : SOp
  | s8 : Nat → SOp
  | s16 : Nat → SOp
  | s32 : Nat → SOp
  | s64 : Nat → SOp
deriving DecidableEq

/-- Performs one sticky read operation, keeping the resulting state. -/
def sstep (r : ReaderError) : SOp → ReaderError
  | SOp.sbool => (r.ReadBool).2
  | SOp.s8 n => (r.Read8 n).2
  | SOp.s16 n => (r.Read16 n).2
  | SOp.s32 n => (r.Read32 n).2
  | SOp.s64 n => (r.Read64 n).2

/-- Performs a sequence of sticky read operations. -/
def srun (r : ReaderError) (ops : List SOp) : ReaderError := ops.foldl sstep r

theorem int8_eq_of_lt {b : Nat} (h : b < 128) : int8 b = (b : Int) := by
  have hb : b % 256 = b := Nat.mod_eq_of_lt (by omega)
  simp [int8, hb, h]

theorem mask_eq_of_le {w n : Nat} (h : n ≤ w) : mask w n = 2 ^ n - 1 := by
  rcases Nat.lt_or_ge n w with hlt | hge
  · have h1 : (1 : Nat) <<< n = 2 ^ n := by rw [Nat.shiftLeft_eq, Nat.one_mul]
    have h2 : (2 : Nat) ^ n < 2 ^ w := Nat.pow_lt_pow_right (by norm_num) hlt
    have h5 : (1 : Nat) ≤ 2 ^ n := Nat.two_pow_pos n
    have h4 : 2 ^ w + 2 ^ n - 1 = 2 ^ w + (2 ^ n - 1) := by omega
    unfold mask
    rw [h1, Nat.mod_eq_of_lt h2, h4, Nat.add_mod_left]
    exact Nat.mod_eq_of_lt (by omega)
  · have hnw : n = w := Nat.le_antisymm h hge
    subst hnw
    have h1 : (1 : Nat) <<< n % 2 ^ n = 0 := by rw [Nat.shiftLeft_eq, Nat.one_mul, Nat.mod_self]
    have h5 : (1 : Nat) ≤ 2 ^ n := Nat.two_pow_pos n
    unfold mask
    rw [h1, Nat.add_zero]
    exact Nat.mod_eq_of_lt (by omega)

theorem and_mask_eq_mod {v w n : Nat} (h : n ≤ w) : v &&& mask w n = v % 2 ^ n := by
  rw [mask_eq_of_le h, Nat.and_pow_two_sub_one_eq_mod]

theorem bytesToNat_lt {data : List Nat} (hb : ByteSeq data) :
    bytesToNat data < 2 ^ (8 * data.length) := by
  induction data with
  | nil => simp [bytesToNat]
  | cons d rest ih =>
    have hd : d < 256 := hb d (List.mem_cons_self d rest)
    have hr : bytesToNat rest < 2 ^ (8 * rest.length) :=
      ih (fun b hbm => hb b (List.mem_cons_of_mem d hbm))
    have e : (2 : Nat) ^ (8 * (rest.length + 1)) = 2 ^ (8 * rest.length) * 256 := by
      rw [show 8 * (rest.length + 1) = 8 * rest.length + 8 by ring, pow_add]; norm_num
    have h2 : 256 * (bytesToNat rest + 1) ≤ 256 * 2 ^ (8 * rest.length) :=
      Nat.mul_le_mul (Nat.le_refl 256) hr
    simp only [bytesToNat, List.length_cons, e]
    omega

theorem bytesToNat_getD {data : List Nat} (hb : ByteSeq data) :
    ∀ j, data.getD j 0 = bytesToNat data / 2 ^ (8 * j) % 256 := by
  induction data with
  | nil => intro j; simp [bytesToNat]
  | cons d rest ih =>
    intro j
    have hd : d < 256 := hb d (List.mem_cons_self d rest)
    have hbr : ByteSeq rest := fun b hbm => hb b (List.mem_cons_of_mem d hbm)
    cases j with
    | zero =>
      simp only [List.getD, bytesToNat, Nat.mul_zero, pow_zero, Nat.div_one]
      rw [Nat.add_mul_mod_self_left, Nat.mod_eq_of_lt hd]
      rfl
    | succ j =>
      have e : (2 : Nat) ^ (8 * (j + 1)) = 256 * 2 ^ (8 * j) := by
        rw [show 8 * (j + 1) = 8 + 8 * j by ring, pow_add]; norm_num
      have hdiv : (d + 256 * bytesToNat rest) / 256 = bytesToNat rest := by
        rw [Nat.add_mul_div_left d _ (by norm_num : (0:Nat) < 256), Nat.div_eq_of_lt hd,
          Nat.zero_add]
      calc (d :: rest).getD (j + 1) 0 = rest.getD j 0 := rfl
        _ = bytesToNat rest / 2 ^ (8 * j) % 256 := ih hbr j
        _ = bytesToNat (d :: rest) / 2 ^ (8 * (j + 1)) % 256 := by
            simp only [bytesToNat, e, ← Nat.div_div_eq_div_mul, hdiv]

theorem bytesToNat_append (data : List Nat) (b : Nat) :
    bytesToNat (data ++ [b]) = bytesToNat data + b * 2 ^ (8 * data.length) := by
  induction data with
  | nil => simp [bytesToNat]
  | cons d rest ih =>
    have e : (2 : Nat) ^ (8 * (rest.length + 1)) = 2 ^ (8 * rest.length) * 256 := by
      rw [show 8 * (rest.length + 1) = 8 * rest.length + 8 by ring, pow_add]; norm_num
    have hs : bytesToNat (d :: (rest ++ [b])) = d + 256 * bytesToNat (rest ++ [b]) := rfl
    have hs2 : bytesToNat (d :: rest) = d + 256 * bytesToNat rest := rfl
    rw [List.cons_append, hs, ih, hs2, List.length_cons, e]
    ring

theorem bytesToNat_set_add {data : List Nat} :
    ∀ j x, j < data.length →
      bytesToNat (data.set j (data.getD j 0 + x)) = bytesToNat data + x * 2 ^ (8 * j) := by
  induction data with
  | nil => intro j x h; simp at h
  | cons d rest ih =>
    intro j x h
    cases j with
    | zero =>
      have hg : (d :: rest).getD 0 0 = d := rfl
      have hset : (d :: rest).set 0 ((d :: rest).getD 0 0 + x) = (d + x) :: rest := by
        rw [hg]; rfl
      have h1 : bytesToNat ((d + x) :: rest) = d + x + 256 * bytesToNat rest := rfl
      have h2 : bytesToNat (d :: rest) = d + 256 * bytesToNat rest := rfl
      rw [hset, h1, h2, Nat.mul_zero, pow_zero, Nat.mul_one]
      ring
    | succ j =>
      have hj : j < rest.length := by simpa using h
      have e : (2 : Nat) ^ (8 * (j + 1)) = 2 ^ (8 * j) * 256 := by
        rw [show 8 * (j + 1) = 8 * j + 8 by ring, pow_add]; norm_num
      have hg : (d :: rest).getD (j + 1) 0 = rest.getD j 0 := rfl
      simp only [List.set, bytesToNat, hg, ih j x hj, e]
      ring

theorem byteSeq_append {data : List Nat} {b : Nat} (hb : ByteSeq data) (h : b < 256) :
    ByteSeq (data ++ [b]) := by
  intro x hx
  rcases List.mem_append.mp hx with h1 | h1
  · exact hb x h1
  · simp only [List.mem_singleton] at h1; omega

theorem byteSeq_set {data : List Nat} {j b : Nat} (hb : ByteSeq data) (h : b < 256) :
    ByteSeq (data.set j b) := by
  intro x hx
  rcases List.mem_or_eq_of_mem_set hx with h1 | h1
  · exact hb x h1
  · omega

theorem mul_pow_mod_pow {a s t : Nat} (h : s ≤ t) :
    a * 2 ^ s % 2 ^ t = a % 2 ^ (t - s) * 2 ^ s := by
  have e : (2 : Nat) ^ t = 2 ^ (t - s) * 2 ^ s := by rw [← pow_add]; congr 1; omega
  rw [e, Nat.mul_mod_mul_right]

theorem mod_pow_mod_pow (x a b : Nat) : x % 2 ^ a % 2 ^ b = x % 2 ^ min a b := by
  rcases Nat.le_total a b with h | h
  · rw [Nat.mod_eq_of_lt
      (Nat.lt_of_lt_of_le (Nat.mod_lt x (Nat.two_pow_pos a)) (Nat.pow_le_pow_right (by norm_num) h)),
      Nat.min_eq_left h]
  · rw [Nat.mod_mod_of_dvd x (pow_dvd_pow 2 h), Nat.min_eq_right h]

theorem mod_pow_div_pow {x a b : Nat} (h : b ≤ a) :
    x % 2 ^ a / 2 ^ b = x / 2 ^ b % 2 ^ (a - b) := by
  have e : (2 : Nat) ^ a = 2 ^ b * 2 ^ (a - b) := by rw [← pow_add]; congr 1; omega
  rw [e, Nat.mod_mul_right_div_self]

theorem lor_mul_pow {a b k : Nat} (h : a < 2 ^ k) : a ||| b * 2 ^ k = a + b * 2 ^ k := by
  rw [Nat.lor_comm, Nat.mul_comm b (2 ^ k), ← Nat.mul_add_lt_is_or h b]
  ring

theorem and_mask_shifted (x br k : Nat) :
    x &&& ((2 ^ k - 1) <<< br) = (x / 2 ^ br % 2 ^ k) * 2 ^ br := by
  have e : (x / 2 ^ br % 2 ^ k) * 2 ^ br = ((x >>> br) % 2 ^ k) <<< br := by
    rw [Nat.shiftLeft_eq, Nat.shiftRight_eq_div_pow]
  rw [e]
  apply Nat.eq_of_testBit_eq
  intro j
  simp only [Nat.testBit_and, Nat.testBit_shiftLeft, Nat.testBit_two_pow_sub_one,
    Nat.testBit_mod_two_pow, Nat.testBit_shiftRight, ge_iff_le]
  by_cases h1 : br ≤ j
  · by_cases h2 : j - br < k
    · simp [h1, h2, Nat.add_sub_cancel' h1, Bool.and_comm]
    · simp [h1, h2]
  · simp [h1]

theorem mod_pow_and {x m w : Nat} (h : m < 2 ^ w) : x % 2 ^ w &&& m = x &&& m := by
  apply Nat.eq_of_testBit_eq
  intro j
  simp only [Nat.testBit_and, Nat.testBit_mod_two_pow]
  by_cases hj : j < w
  · simp [hj]
  · have hm : m.testBit j = false :=
      Nat.testBit_lt_two_pow
        (Nat.lt_of_lt_of_le h (Nat.pow_le_pow_right (by norm_num) (by omega)))
    simp [hj, hm]

theorem split_mul_pow (N P m a : Nat) : N + a % m * P + a / m * (m * P) = N + a * P := by
  have h1 : a % m * P + a / m * (m * P) = (a % m + a / m * m) * P := by ring
  rw [Nat.add_assoc, h1, Nat.mod_add_div']

theorem writeLoopAux_nonpos {fuel : Nat} {data : List Nat} {value : Nat} {rem : Int}
    (h : rem ≤ 0) : writeLoopAux fuel data value rem = data := by
  cases fuel with
  | zero => rfl
  | succ fuel =>
    simp only [writeLoopAux]
    rw [if_neg (by omega)]

theorem writeLoop_nonpos {data : List Nat} {value : Nat} {rem : Int} (h : rem ≤ 0) :
    writeLoop data value rem = data := writeLoopAux_nonpos h

theorem writeLoopAux_spec : ∀ (fuel k : Nat) (data : List Nat) (value : Nat),
    k ≤ fuel → value < 2 ^ k →
    (writeLoopAux fuel data value (k : Int)).length = data.length + (k + 7) / 8 ∧
    bytesToNat (writeLoopAux fuel data value (k : Int)) =
      bytesToNat data + value * 2 ^ (8 * data.length) ∧
    (ByteSeq data → ByteSeq (writeLoopAux fuel data value (k : Int))) := by
  intro fuel
  induction fuel with
  | zero =>
    intro k data value hk hv
    have hk0 : k = 0 := by omega
    subst hk0
    have hv0 : value = 0 := by simpa using hv
    subst hv0
    simp [writeLoopAux]
  | succ fuel ih =>
    intro k data value hk hv
    rcases Nat.eq_zero_or_pos k with h0 | hpos
    · subst h0
      have hv0 : value = 0 := by simpa using hv
      subst hv0
      simp [writeLoopAux]
    · have hc : (0 : Int) < (k : Int) := by exact_mod_cast hpos
      simp only [writeLoopAux, if_pos hc]
      rcases Nat.le_total k 8 with hk8 | hk8
      · have hrem : ((k : Int) - 8) ≤ 0 := by omega
        rw [writeLoopAux_nonpos hrem]
        have hv256 : value < 256 :=
          Nat.lt_of_lt_of_le hv
            (Nat.le_trans (Nat.pow_le_pow_right (by norm_num) hk8) (by norm_num))
        have hvm : value % 256 = value := Nat.mod_eq_of_lt hv256
        refine ⟨?_, ?_, ?_⟩
        · rw [List.length_append]
          simp only [List.length_singleton]
          omega
        · rw [hvm, bytesToNat_append]
        · intro hb
          rw [hvm]
          exact byteSeq_append hb hv256
      · have hcast : (k : Int) - 8 = ((k - 8 : Nat) : Int) := by omega
        rw [hcast]
        have h1 : k - 8 ≤ fuel := by omega
        have h2 : value >>> 8 < 2 ^ (k - 8) := by
          rw [Nat.shiftRight_eq_div_pow]
          apply Nat.div_lt_of_lt_mul
          rw [← pow_add]
          exact Nat.lt_of_lt_of_le hv (Nat.pow_le_pow_right (by norm_num) (by omega))
        obtain ⟨l1, l2, l3⟩ := ih (k - 8) (data ++ [value % 256]) (value >>> 8) h1 h2
        refine ⟨?_, ?_, ?_⟩
        · rw [l1, List.length_append]
          simp only [List.length_singleton]
          omega
        · rw [l2, bytesToNat_append, List.length_append]
          simp only [List.length_singleton]
          have hsr : value >>> 8 = value / 256 := by
            rw [Nat.shiftRight_eq_div_pow]
          have e : (2 : Nat) ^ (8 * (data.length + 1)) = 256 * 2 ^ (8 * data.length) := by
            rw [show 8 * (data.length + 1) = 8 + 8 * data.length by ring, pow_add]; norm_num
          rw [hsr, e]
          exact split_mul_pow (bytesToNat data) (2 ^ (8 * data.length)) 256 value
        · intro hb
          exact l3 (byteSeq_append hb (Nat.mod_lt value (by norm_num)))

theorem writeLoop_spec {k : Nat} (data : List Nat) (value : Nat) (hv : value < 2 ^ k) :
    (writeLoop data value (k : Int)).length = data.length + (k + 7) / 8 ∧
    bytesToNat (writeLoop data value (k : Int)) =
      bytesToNat data + value * 2 ^ (8 * data.length) ∧
    (ByteSeq data → ByteSeq (writeLoop data value (k : Int))) := by
  have e : ((k : Int)).toNat = k := Int.toNat_natCast k
  unfold writeLoop
  rw [e]
  exact writeLoopAux_spec k k data value (Nat.le_refl k) hv

theorem write_spec {w : Nat} (wr : Writer) (v n : Nat)
    (hw8 : 8 ≤ w) (hw64 : w ≤ 64) (hn : n ≤ w)
    (hlen : wr.data.length = (wr.bitsWritten + 7) / 8)
    (hN : bytesToNat wr.data < 2 ^ wr.bitsWritten)
    (hb : ByteSeq wr.data) :
    (write w wr v n).bitsWritten = wr.bitsWritten + n ∧
    (write w wr v n).data.length = (wr.bitsWritten + n + 7) / 8 ∧
    bytesToNat (write w wr v n).data
      = bytesToNat wr.data + v % 2 ^ n * 2 ^ wr.bitsWritten ∧
    ByteSeq (write w wr v n).data := by
  rcases Nat.eq_zero_or_pos n with hn0 | hn1
  · subst hn0
    have e : write w wr v 0 = wr := by simp [write]
    rw [e]
    refine ⟨by omega, by rw [Nat.add_zero]; exact hlen, ?_, hb⟩
    simp [Nat.mod_one]
  · have hint8 : int8 n = (n : Int) := int8_eq_of_lt (by omega)
    have hval : v &&& mask w n = v % 2 ^ n := and_mask_eq_mod hn
    have hvlt : v % 2 ^ n < 2 ^ n := Nat.mod_lt v (Nat.two_pow_pos n)
    by_cases hofs : 0 < wr.bitsWritten % 8
    · -- unaligned cursor: the current partial byte is filled first
      have hc8 : wr.bitsWritten % 8 < 8 := Nat.mod_lt _ (by norm_num)
      have hlen1 : wr.data.length = wr.bitsWritten / 8 + 1 := by omega
      have hidxlt : wr.bitsWritten / 8 < wr.data.length := by omega
      have hgd : wr.data.getD (wr.bitsWritten / 8) 0
          = bytesToNat wr.data / 2 ^ (8 * (wr.bitsWritten / 8)) % 256 := bytesToNat_getD hb _
      have hNd : bytesToNat wr.data / 2 ^ (8 * (wr.bitsWritten / 8))
          < 2 ^ (wr.bitsWritten % 8) := by
        apply Nat.div_lt_of_lt_mul
        rw [← pow_add]
        have e : 8 * (wr.bitsWritten / 8) + wr.bitsWritten % 8 = wr.bitsWritten := by omega
        rw [e]
        exact hN
      have hoblt : bytesToNat wr.data / 2 ^ (8 * (wr.bitsWritten / 8)) < 256 := by
        have h7 : (2 : Nat) ^ (wr.bitsWritten % 8) ≤ 2 ^ 7 :=
          Nat.pow_le_pow_right (by norm_num) (by omega)
        norm_num at h7
        omega
      have hgd2 : wr.data.getD (wr.bitsWritten / 8) 0
          = bytesToNat wr.data / 2 ^ (8 * (wr.bitsWritten / 8)) := by
        rw [hgd, Nat.mod_eq_of_lt hoblt]
      have hX : ((v % 2 ^ n) <<< (wr.bitsWritten % 8)) % 2 ^ w % 256
          = v % 2 ^ n % 2 ^ (8 - wr.bitsWritten % 8) * 2 ^ (wr.bitsWritten % 8) := by
        have h256 : (256 : Nat) = 2 ^ 8 := by norm_num
        rw [Nat.shiftLeft_eq, h256, mod_pow_mod_pow, Nat.min_eq_right hw8,
          mul_pow_mod_pow (by omega)]
      have hor2 : wr.data.getD (wr.bitsWritten / 8) 0
            ||| v % 2 ^ n % 2 ^ (8 - wr.bitsWritten % 8) * 2 ^ (wr.bitsWritten % 8)
          = wr.data.getD (wr.bitsWritten / 8) 0
            + v % 2 ^ n % 2 ^ (8 - wr.bitsWritten % 8) * 2 ^ (wr.bitsWritten % 8) := by
        rw [hgd2]
        exact lor_mul_pow hNd
      have hnewb2 : wr.data.getD (wr.bitsWritten / 8) 0
            + v % 2 ^ n % 2 ^ (8 - wr.bitsWritten % 8) * 2 ^ (wr.bitsWritten % 8) < 256 := by
        have e1 : (2 : Nat) ^ (8 - wr.bitsWritten % 8) * 2 ^ (wr.bitsWritten % 8) = 256 := by
          rw [← pow_add]
          have e : 8 - wr.bitsWritten % 8 + wr.bitsWritten % 8 = 8 := by omega
          rw [e]
          norm_num
        have e2 : v % 2 ^ n % 2 ^ (8 - wr.bitsWritten % 8)
            < 2 ^ (8 - wr.bitsWritten % 8) := Nat.mod_lt _ (Nat.two_pow_pos _)
        have e3 : v % 2 ^ n % 2 ^ (8 - wr.bitsWritten % 8) * 2 ^ (wr.bitsWritten % 8)
            ≤ (2 ^ (8 - wr.bitsWritten % 8) - 1) * 2 ^ (wr.bitsWritten % 8) :=
          Nat.mul_le_mul (by omega) (Nat.le_refl _)
        have e4 : (2 ^ (8 - wr.bitsWritten % 8) - 1) * 2 ^ (wr.bitsWritten % 8)
            = 256 - 2 ^ (wr.bitsWritten % 8) := by
          rw [Nat.sub_mul, e1, Nat.one_mul]
        have e5 : (0 : Nat) < 2 ^ (wr.bitsWritten % 8) := Nat.two_pow_pos _
        rw [hgd2]
        omega
      have hset : bytesToNat (wr.data.set (wr.bitsWritten / 8)
            (wr.data.getD (wr.bitsWritten / 8) 0
              + v % 2 ^ n % 2 ^ (8 - wr.bitsWritten % 8) * 2 ^ (wr.bitsWritten % 8)))
          = bytesToNat wr.data
            + v % 2 ^ n % 2 ^ (8 - wr.bitsWritten % 8) * 2 ^ (wr.bitsWritten % 8)
              * 2 ^ (8 * (wr.bitsWritten / 8)) :=
        bytesToNat_set_add _ _ hidxlt
      have e : write w wr v n =
          { data := writeLoop
              (wr.data.set (wr.bitsWritten / 8)
                ((wr.data.getD (wr.bitsWritten / 8) 0)
                  ||| ((v % 2 ^ n) <<< (wr.bitsWritten % 8)) % 2 ^ w % 256))
              ((v % 2 ^ n) >>> (8 - wr.bitsWritten % 8))
              ((n : Int) - ((8 - wr.bitsWritten % 8 : Nat) : Int)),
            bitsWritten := wr.bitsWritten + n } := by
        simp only [write, hval, hint8,
          int8_eq_of_lt (show 8 - wr.bitsWritten % 8 < 128 by omega)]
        rw [if_neg (by omega : ¬ n = 0), if_pos hofs]
      have e1 : (write w wr v n).bitsWritten = wr.bitsWritten + n := by rw [e]
      have e2 : (write w wr v n).data = writeLoop
          (wr.data.set (wr.bitsWritten / 8)
            ((wr.data.getD (wr.bitsWritten / 8) 0)
              ||| ((v % 2 ^ n) <<< (wr.bitsWritten % 8)) % 2 ^ w % 256))
          ((v % 2 ^ n) >>> (8 - wr.bitsWritten % 8))
          ((n : Int) - ((8 - wr.bitsWritten % 8 : Nat) : Int)) := by rw [e]
      rw [hX, hor2] at e2
      rcases Nat.le_total n (8 - wr.bitsWritten % 8) with hsmall | hbig
      · -- everything fits in the current partial byte
        have hrem : ((n : Int) - ((8 - wr.bitsWritten % 8 : Nat) : Int)) ≤ 0 := by omega
        rw [writeLoop_nonpos hrem] at e2
        have hmm : v % 2 ^ n % 2 ^ (8 - wr.bitsWritten % 8) = v % 2 ^ n :=
          Nat.mod_eq_of_lt
            (Nat.lt_of_lt_of_le hvlt (Nat.pow_le_pow_right (by norm_num) hsmall))
        have epow : (2 : Nat) ^ (wr.bitsWritten % 8) * 2 ^ (8 * (wr.bitsWritten / 8))
            = 2 ^ wr.bitsWritten := by
          rw [← pow_add]; congr 1; omega
        refine ⟨e1, ?_, ?_, ?_⟩
        · rw [e2, List.length_set]
          omega
        · rw [e2, hset, hmm, Nat.mul_assoc, epow]
        · rw [e2]
          exact byteSeq_set hb hnewb2
      · -- the value continues into freshly appended bytes
        have hk : ((n : Int) - ((8 - wr.bitsWritten % 8 : Nat) : Int))
            = ((n - (8 - wr.bitsWritten % 8) : Nat) : Int) := by omega
        rw [hk] at e2
        have hv2 : (v % 2 ^ n) >>> (8 - wr.bitsWritten % 8)
            < 2 ^ (n - (8 - wr.bitsWritten % 8)) := by
          rw [Nat.shiftRight_eq_div_pow]
          apply Nat.div_lt_of_lt_mul
          rw [← pow_add]
          have e : 8 - wr.bitsWritten % 8 + (n - (8 - wr.bitsWritten % 8)) = n := by omega
          rw [e]
          exact hvlt
        obtain ⟨l1, l2, l3⟩ := writeLoop_spec
          (wr.data.set (wr.bitsWritten / 8)
            (wr.data.getD (wr.bitsWritten / 8) 0
              + v % 2 ^ n % 2 ^ (8 - wr.bitsWritten % 8) * 2 ^ (wr.bitsWritten % 8)))
          ((v % 2 ^ n) >>> (8 - wr.bitsWritten % 8)) hv2
        have epow : (2 : Nat) ^ (wr.bitsWritten % 8) * 2 ^ (8 * (wr.bitsWritten / 8))
            = 2 ^ wr.bitsWritten := by
          rw [← pow_add]; congr 1; omega
        have p2 : (2 : Nat) ^ (8 * (wr.data.length))
            = 2 ^ (8 - wr.bitsWritten % 8) * 2 ^ wr.bitsWritten := by
          rw [← pow_add]; congr 1; omega
        refine ⟨e1, ?_, ?_, ?_⟩
        · rw [e2, l1, List.length_set]
          omega
        · rw [e2, l2, hset, List.length_set, p2, Nat.shiftRight_eq_div_pow,
            Nat.mul_assoc, epow]
          exact split_mul_pow _ _ _ _
        · rw [e2]
          exact l3 (byteSeq_set hb hnewb2)
    · -- byte-aligned cursor: only whole bytes are appended
      have hof0 : wr.bitsWritten % 8 = 0 := by omega
      have e : write w wr v n =
          { data := writeLoop wr.data (v % 2 ^ n) ((n : Int)),
            bitsWritten := wr.bitsWritten + n } := by
        simp only [write, hval, hint8]
        rw [if_neg (by omega : ¬ n = 0), if_neg hofs]
      have e1 : (write w wr v n).bitsWritten = wr.bitsWritten + n := by rw [e]
      have e2 : (write w wr v n).data = writeLoop wr.data (v % 2 ^ n) ((n : Int)) := by rw [e]
      obtain ⟨l1, l2, l3⟩ := writeLoop_spec wr.data (v % 2 ^ n) hvlt
      refine ⟨e1, ?_, ?_, ?_⟩
      · rw [e2, l1]
        omega
      · rw [e2, l2]
        have e8 : 8 * wr.data.length = wr.bitsWritten := by omega
        rw [e8]
      · rw [e2]
        exact l3 hb

theorem encOps_lt (ops : List WOp) : encOps ops < 2 ^ totalBits ops := by
  induction ops with
  | nil => simp [encOps, totalBits]
  | cons op ops ih =>
    have h1 : op.value % 2 ^ op.bits < 2 ^ op.bits := Nat.mod_lt _ (Nat.two_pow_pos _)
    simp only [encOps, totalBits, List.map_cons, List.sum_cons] at ih ⊢
    rw [pow_add]
    have h2 : (encOps ops + 1) * 2 ^ op.bits
        ≤ 2 ^ ((ops.map WOp.bits).sum) * 2 ^ op.bits :=
      Nat.mul_le_mul (by omega) (Nat.le_refl _)
    have h3 : encOps ops * 2 ^ op.bits + 2 ^ op.bits = (encOps ops + 1) * 2 ^ op.bits := by
      ring
    have h4 : 2 ^ ((ops.map WOp.bits).sum) * 2 ^ op.bits
        = 2 ^ op.bits * 2 ^ ((ops.map WOp.bits).sum) := by ring
    have h5 : (0 : Nat) < 2 ^ op.bits := Nat.two_pow_pos _
    omega

theorem wstep_spec (wr : Writer) (op : WOp) (hop : op.bits ≤ op.width)
    (hlen : wr.data.length = (wr.bitsWritten + 7) / 8)
    (hN : bytesToNat wr.data < 2 ^ wr.bitsWritten)
    (hb : ByteSeq wr.data) :
    (wstep wr op).bitsWritten = wr.bitsWritten + op.bits ∧
    (wstep wr op).data.length = (wr.bitsWritten + op.bits + 7) / 8 ∧
    bytesToNat (wstep wr op).data
      = bytesToNat wr.data + op.value % 2 ^ op.bits * 2 ^ wr.bitsWritten ∧
    ByteSeq (wstep wr op).data := by
  cases op with
  | wbool v =>
    cases v with
    | false =>
      simp only [wstep, Writer.WriteBool, WOp.bits, WOp.value, Bool.false_eq_true, if_false]
      exact write_spec (w := 8) wr 0 1 (by norm_num) (by norm_num) (by norm_num) hlen hN hb
    | true =>
      simp only [wstep, Writer.WriteBool, WOp.bits, WOp.value, if_true]
      exact write_spec (w := 8) wr 1 1 (by norm_num) (by norm_num) (by norm_num) hlen hN hb
  | w8 v n =>
    simp only [WOp.bits, WOp.width] at hop
    simp only [wstep, Writer.Write8, WOp.bits, WOp.value,
      Nat.mod_eq_of_lt (show n < 256 by omega)]
    have h := write_spec (w := 8) wr (v % 2 ^ 8) n (by norm_num) (by norm_num) hop hlen hN hb
    rwa [mod_pow_mod_pow, Nat.min_eq_right hop] at h
  | w16 v n =>
    simp only [WOp.bits, WOp.width] at hop
    simp only [wstep, Writer.Write16, WOp.bits, WOp.value,
      Nat.mod_eq_of_lt (show n < 256 by omega)]
    have h := write_spec (w := 16) wr (v % 2 ^ 16) n (by norm_num) (by norm_num) hop hlen hN hb
    rwa [mod_pow_mod_pow, Nat.min_eq_right hop] at h
  | w32 v n =>
    simp only [WOp.bits, WOp.width] at hop
    simp only [wstep, Writer.Write32, WOp.bits, WOp.value,
      Nat.mod_eq_of_lt (show n < 256 by omega)]
    have h := write_spec (w := 32) wr (v % 2 ^ 32) n (by norm_num) (by norm_num) hop hlen hN hb
    rwa [mod_pow_mod_pow, Nat.min_eq_right hop] at h
  | w64 v n =>
    simp only [WOp.bits, WOp.width] at hop
    simp only [wstep, Writer.Write64, WOp.bits, WOp.value,
      Nat.mod_eq_of_lt (show n < 256 by omega)]
    have h := write_spec (w := 64) wr (v % 2 ^ 64) n (by norm_num) (by norm_num) hop hlen hN hb
    rwa [mod_pow_mod_pow, Nat.min_eq_right hop] at h

theorem wrun_spec : ∀ (ops : List WOp) (wr : Writer),
    (∀ op ∈ ops, op.bits ≤ op.width) →
    wr.data.length = (wr.bitsWritten + 7) / 8 →
    bytesToNat wr.data < 2 ^ wr.bitsWritten →
    ByteSeq wr.data →
    (wrun wr ops).bitsWritten = wr.bitsWritten + totalBits ops ∧
    (wrun wr ops).data.length = (wr.bitsWritten + totalBits ops + 7) / 8 ∧
    bytesToNat (wrun wr ops).data = bytesToNat wr.data + encOps ops * 2 ^ wr.bitsWritten ∧
    ByteSeq (wrun wr ops).data := by
  intro ops
  induction ops with
  | nil =>
    intro wr _ hlen hN hb
    refine ⟨by simp [wrun, totalBits], ?_, ?_, hb⟩
    · simp only [wrun, List.foldl_nil, totalBits, List.map_nil, List.sum_nil, Nat.add_zero]
      exact hlen
    · simp [wrun, encOps]
  | cons op ops ih =>
    intro wr hops hlen hN hb
    have hop : op.bits ≤ op.width := hops op (List.mem_cons_self op ops)
    obtain ⟨s1, s2, s3, s4⟩ := wstep_spec wr op hop hlen hN hb
    have hNlt : bytesToNat (wstep wr op).data < 2 ^ (wstep wr op).bitsWritten := by
      rw [s3, s1, pow_add]
      have h1 : op.value % 2 ^ op.bits < 2 ^ op.bits := Nat.mod_lt _ (Nat.two_pow_pos _)
      have h2 : (op.value % 2 ^ op.bits + 1) * 2 ^ wr.bitsWritten
          ≤ 2 ^ op.bits * 2 ^ wr.bitsWritten := Nat.mul_le_mul (by omega) (Nat.le_refl _)
      have h3 : op.value % 2 ^ op.bits * 2 ^ wr.bitsWritten + 2 ^ wr.bitsWritten
          = (op.value % 2 ^ op.bits + 1) * 2 ^ wr.bitsWritten := by ring
      have h4 : 2 ^ op.bits * 2 ^ wr.bitsWritten = 2 ^ wr.bitsWritten * 2 ^ op.bits := by
        ring
      omega
    have hrun : wrun wr (op :: ops) = wrun (wstep wr op) ops := rfl
    obtain ⟨r1, r2, r3, r4⟩ := ih (wstep wr op)
      (fun o ho => hops o (List.mem_cons_of_mem _ ho)) (by rw [s2, s1]) hNlt s4
    rw [hrun]
    refine ⟨?_, ?_, ?_, r4⟩
    · rw [r1, s1]
      simp only [totalBits, List.map_cons, List.sum_cons]
      omega
    · rw [r2, s1]
      simp only [totalBits, List.map_cons, List.sum_cons]
      omega
    · rw [r3, s3, s1]
      simp only [encOps]
      rw [pow_add]
      ring

theorem mod_pow_split (x br j : Nat) :
    x % 2 ^ (br + j) = x % 2 ^ br + x / 2 ^ br % 2 ^ j * 2 ^ br := by
  rw [pow_add, Nat.mod_mul]
  ring

theorem readLoopAux_nonpos {w fuel : Nat} {data : List Nat} {value idx br : Nat} {rem : Int}
    (h : rem ≤ 0) : readLoopAux w fuel data value idx br rem = Except.ok value := by
  cases fuel with
  | zero => rfl
  | succ fuel =>
    simp only [readLoopAux]
    rw [if_neg (by omega)]

theorem readLoop_nonpos {w : Nat} {data : List Nat} {value idx br : Nat} {rem : Int}
    (h : rem ≤ 0) : readLoop w data value idx br rem = Except.ok value :=
  readLoopAux_nonpos h

theorem readLoopAux_spec : ∀ (fuel k w c : Nat) (data : List Nat) (value idx br : Nat),
    k ≤ fuel → 0 < k → ByteSeq data →
    8 * idx = c + br →
    value = bytesToNat data / 2 ^ c % 2 ^ br →
    br + k ≤ w → br + k ≤ 64 → 8 ≤ w →
    readLoopAux w fuel data value idx br ((k : Int)) =
      (if idx + (k + 7) / 8 ≤ data.length
        then Except.ok (bytesToNat data / 2 ^ c % 2 ^ (br + k))
        else Except.error Err.unexpectedEndOfData) := by
  intro fuel
  induction fuel with
  | zero =>
    intro k w c data value idx br hk hkpos
    omega
  | succ fuel ih =>
    intro k w c data value idx br hk hkpos hb hidx hval hnw hn64 hw8
    have hc : (0 : Int) < (k : Int) := by exact_mod_cast hkpos
    simp only [readLoopAux, if_pos hc]
    by_cases hlt : data.length ≤ idx
    · rw [if_pos hlt, if_neg (by omega)]
    · rw [if_neg hlt]
      have hidxlt : idx < data.length := by omega
      have htn : ((k : Int)).toNat % 256 = k := by
        rw [Int.toNat_natCast]
        exact Nat.mod_eq_of_lt (by omega)
      have hmask : mask w (((k : Int)).toNat % 256) = 2 ^ k - 1 := by
        rw [htn]
        exact mask_eq_of_le (by omega)
      have hmlt : (2 ^ k - 1) <<< br < 2 ^ w := by
        rw [Nat.shiftLeft_eq]
        have h1 : (2 ^ k - 1) * 2 ^ br < 2 ^ k * 2 ^ br :=
          Nat.mul_lt_mul_of_lt_of_le (by have := Nat.two_pow_pos k; omega) (Nat.le_refl _)
            (Nat.two_pow_pos br)
        have h2 : (2 : Nat) ^ k * 2 ^ br ≤ 2 ^ w := by
          rw [← pow_add]
          exact Nat.pow_le_pow_right (by norm_num) (by omega)
        omega
      have hmmod : ((2 ^ k - 1) <<< br) % 2 ^ w = (2 ^ k - 1) <<< br := Nat.mod_eq_of_lt hmlt
      have hd : data.getD idx 0 = bytesToNat data / 2 ^ (8 * idx) % 256 := bytesToNat_getD hb idx
      have hstep : ((data.getD idx 0) <<< br) % 2 ^ w &&& ((2 ^ k - 1) <<< br)
          = data.getD idx 0 % 2 ^ k * 2 ^ br := by
        rw [mod_pow_and hmlt, and_mask_shifted, Nat.shiftLeft_eq,
          Nat.mul_div_cancel _ (Nat.two_pow_pos br)]
      have hvlt : value < 2 ^ br := by
        rw [hval]
        exact Nat.mod_lt _ (Nat.two_pow_pos br)
      have hor : value ||| data.getD idx 0 % 2 ^ k * 2 ^ br
          = value + data.getD idx 0 % 2 ^ k * 2 ^ br := lor_mul_pow hvlt
      have hdd : bytesToNat data / 2 ^ c / 2 ^ br = bytesToNat data / 2 ^ (8 * idx) := by
        rw [Nat.div_div_eq_div_mul, ← pow_add, ← hidx]
      by_cases hk8 : k ≤ 8
      · -- final iteration: the remaining k bits come from this byte
        have hrem : ((k : Int) - 8) ≤ 0 := by omega
        rw [hmask, hmmod, hstep, hor, readLoopAux_nonpos hrem,
          if_pos (by omega : idx + (k + 7) / 8 ≤ data.length)]
        have hdk : data.getD idx 0 % 2 ^ k = bytesToNat data / 2 ^ (8 * idx) % 2 ^ k := by
          rw [hd, show (256 : Nat) = 2 ^ 8 by norm_num, mod_pow_mod_pow,
            Nat.min_eq_right hk8]
        rw [mod_pow_split, hval, hdk, hdd]
      · -- the whole byte is consumed and the loop continues
        have hcast : (k : Int) - 8 = ((k - 8 : Nat) : Int) := by omega
        have hbr8 : (br + 8) % 256 = br + 8 := Nat.mod_eq_of_lt (by omega)
        have hdk : data.getD idx 0 % 2 ^ k = data.getD idx 0 := by
          apply Nat.mod_eq_of_lt
          have h1 : data.getD idx 0 < 256 := by
            rw [hd]
            exact Nat.mod_lt _ (by norm_num)
          have h2 : (256 : Nat) ≤ 2 ^ k := by
            calc (256 : Nat) = 2 ^ 8 := by norm_num
              _ ≤ 2 ^ k := Nat.pow_le_pow_right (by norm_num) (by omega)
          omega
        have hval2 : value + data.getD idx 0 * 2 ^ br
            = bytesToNat data / 2 ^ c % 2 ^ (br + 8) := by
          rw [mod_pow_split, hval, hdd, hd, show (256 : Nat) = 2 ^ 8 by norm_num]
        rw [hmask, hmmod, hstep, hor, hdk, hcast, hbr8]
        rw [ih (k - 8) w c data (value + data.getD idx 0 * 2 ^ br) (idx + 1) (br + 8)
          (by omega) (by omega) hb (by omega) hval2 (by omega) (by omega) hw8]
        by_cases hcond : idx + (k + 7) / 8 ≤ data.length
        · rw [if_pos (show idx + 1 + (k - 8 + 7) / 8 ≤ data.length by omega), if_pos hcond,
            show br + 8 + (k - 8) = br + k by omega]
        · rw [if_neg (show ¬ idx + 1 + (k - 8 + 7) / 8 ≤ data.length by omega),
            if_neg hcond]

theorem readLoop_spec {k w c : Nat} {data : List Nat} {value idx br : Nat}
    (hkpos : 0 < k) (hb : ByteSeq data) (hidx : 8 * idx = c + br)
    (hval : value = bytesToNat data / 2 ^ c % 2 ^ br)
    (hnw : br + k ≤ w) (hn64 : br + k ≤ 64) (hw8 : 8 ≤ w) :
    readLoop w data value idx br ((k : Int)) =
      (if idx + (k + 7) / 8 ≤ data.length
        then Except.ok (bytesToNat data / 2 ^ c % 2 ^ (br + k))
        else Except.error Err.unexpectedEndOfData) := by
  unfold readLoop
  rw [Int.toNat_natCast]
  exact readLoopAux_spec k k w c data value idx br (Nat.le_refl k) hkpos hb hidx hval hnw
    hn64 hw8

theorem read_zero {w : Nat} (r : Reader) : read w r 0 = (Except.ok 0, r) := by
  simp [read]

theorem read_spec {w : Nat} (r : Reader) (n : Nat)
    (hn1 : 1 ≤ n) (hnw : n ≤ w) (hw8 : 8 ≤ w) (hw64 : w ≤ 64)
    (hb : ByteSeq r.data) :
    read w r n =
      (if r.bitsRead + n ≤ 8 * r.data.length
        then (Except.ok (bytesToNat r.data / 2 ^ r.bitsRead % 2 ^ n),
          { r with bitsRead := r.bitsRead + n })
        else (Except.error Err.unexpectedEndOfData, r)) := by
  have hint8 : int8 n = (n : Int) := int8_eq_of_lt (by omega)
  have hint8b : int8 (8 - r.bitsRead % 8) = ((8 - r.bitsRead % 8 : Nat) : Int) :=
    int8_eq_of_lt (by omega)
  have hc8 : r.bitsRead % 8 < 8 := Nat.mod_lt _ (by norm_num)
  simp only [read, hint8, hint8b]
  rw [if_neg (show ¬ n = 0 by omega)]
  by_cases hofs : 0 < r.bitsRead % 8
  · rw [if_pos hofs]
    by_cases hlt : r.data.length ≤ r.bitsRead / 8
    · rw [if_pos hlt, if_neg (show ¬ r.bitsRead + n ≤ 8 * r.data.length by omega)]
    · rw [if_neg hlt]
      have hidxlt : r.bitsRead / 8 < r.data.length := by omega
      have hd : r.data.getD (r.bitsRead / 8) 0
          = bytesToNat r.data / 2 ^ (8 * (r.bitsRead / 8)) % 256 := bytesToNat_getD hb _
      have hshr : (r.data.getD (r.bitsRead / 8) 0) >>> (r.bitsRead % 8)
          = bytesToNat r.data / 2 ^ r.bitsRead % 2 ^ (8 - r.bitsRead % 8) := by
        rw [hd, Nat.shiftRight_eq_div_pow, show (256 : Nat) = 2 ^ 8 by norm_num,
          mod_pow_div_pow (by omega), Nat.div_div_eq_div_mul, ← pow_add,
          show 8 * (r.bitsRead / 8) + r.bitsRead % 8 = r.bitsRead by omega]
      have hv0 : ((r.data.getD (r.bitsRead / 8) 0) >>> (r.bitsRead % 8)) &&& mask w n
          = bytesToNat r.data / 2 ^ r.bitsRead % 2 ^ (8 - r.bitsRead % 8) % 2 ^ n := by
        rw [and_mask_eq_mod hnw, hshr]
      rcases Nat.lt_or_ge (8 - r.bitsRead % 8) n with hbig | hsmall
      · -- the read continues past the first partial byte
        have hv0' : ((r.data.getD (r.bitsRead / 8) 0) >>> (r.bitsRead % 8)) &&& mask w n
            = bytesToNat r.data / 2 ^ r.bitsRead % 2 ^ (8 - r.bitsRead % 8) := by
          rw [hv0, mod_pow_mod_pow, Nat.min_eq_left (by omega)]
        have hcast : ((n : Int) - ((8 - r.bitsRead % 8 : Nat) : Int))
            = ((n - (8 - r.bitsRead % 8) : Nat) : Int) := by omega
        rw [hv0', hcast, readLoop_spec (c := r.bitsRead)
          (by omega) hb (by omega) rfl (by omega) (by omega) hw8]
        by_cases hcond : r.bitsRead + n ≤ 8 * r.data.length
        · rw [if_pos (show r.bitsRead / 8 + 1 + (n - (8 - r.bitsRead % 8) + 7) / 8
              ≤ r.data.length by omega), if_pos hcond,
            show 8 - r.bitsRead % 8 + (n - (8 - r.bitsRead % 8)) = n by omega]
        · rw [if_neg (show ¬ r.bitsRead / 8 + 1 + (n - (8 - r.bitsRead % 8) + 7) / 8
              ≤ r.data.length by omega), if_neg hcond]
      · -- the whole request fits inside the current byte
        have hrem : ((n : Int) - ((8 - r.bitsRead % 8 : Nat) : Int)) ≤ 0 := by omega
        have hv0'' : ((r.data.getD (r.bitsRead / 8) 0) >>> (r.bitsRead % 8)) &&& mask w n
            = bytesToNat r.data / 2 ^ r.bitsRead % 2 ^ n := by
          rw [hv0, mod_pow_mod_pow, Nat.min_eq_right hsmall]
        rw [hv0'', readLoop_nonpos hrem,
          if_pos (show r.bitsRead + n ≤ 8 * r.data.length by omega)]
  · rw [if_neg hofs]
    have hof0 : r.bitsRead % 8 = 0 := by omega
    rw [readLoop_spec (c := r.bitsRead) (by omega) hb (by omega)
      (by rw [pow_zero, Nat.mod_one]) (by omega) (by omega) hw8]
    by_cases hcond : r.bitsRead + n ≤ 8 * r.data.length
    · rw [if_pos (show r.bitsRead / 8 + (n + 7) / 8 ≤ r.data.length by omega),
        if_pos hcond, show 0 + n = n by omega]
    · rw [if_neg (show ¬ r.bitsRead / 8 + (n + 7) / 8 ≤ r.data.length by omega),
        if_neg hcond]

theorem enc_step {X v n T E : Nat} (hv : v < 2 ^ n) (hE : E < 2 ^ T)
    (h : X % 2 ^ (n + T) = v + E * 2 ^ n) :
    X % 2 ^ n = v ∧ X / 2 ^ n % 2 ^ T = E := by
  constructor
  · have h1 : X % 2 ^ (n + T) % 2 ^ n = X % 2 ^ n := by
      rw [mod_pow_mod_pow, Nat.min_eq_right (by omega : n ≤ n + T)]
    rw [← h1, h, Nat.add_mul_mod_self_right, Nat.mod_eq_of_lt hv]
  · have h2 := Nat.div_add_mod X (2 ^ (n + T))
    rw [h] at h2
    have e : (2 : Nat) ^ (n + T) = 2 ^ n * 2 ^ T := pow_add 2 n T
    have h3 : X / 2 ^ n = 2 ^ T * (X / 2 ^ (n + T)) + E := by
      have e2 : 2 ^ n * 2 ^ T * (X / (2 ^ n * 2 ^ T)) + (v + E * 2 ^ n)
          = 2 ^ n * (2 ^ T * (X / (2 ^ n * 2 ^ T)) + E) + v := by ring
      conv_lhs => rw [← h2]
      rw [e, e2, Nat.mul_add_div (Nat.two_pow_pos n), Nat.div_eq_of_lt hv, Nat.add_zero]
    rw [h3, Nat.add_comm, Nat.add_mul_mod_self_left, Nat.mod_eq_of_lt hE]

theorem read_spec_mk {w : Nat} (data : List Nat) (c n : Nat)
    (hn1 : 1 ≤ n) (hnw : n ≤ w) (hw8 : 8 ≤ w) (hw64 : w ≤ 64) (hb : ByteSeq data) :
    read w { data := data, bitsRead := c } n =
      (if c + n ≤ 8 * data.length
        then (Except.ok (bytesToNat data / 2 ^ c % 2 ^ n),
          { data := data, bitsRead := c + n })
        else (Except.error Err.unexpectedEndOfData, { data := data, bitsRead := c })) := by
  simpa using read_spec (w := w) { data := data, bitsRead := c } n hn1 hnw hw8 hw64 hb

theorem Read8_eq {r : Reader} {n : Nat} (h : n ≤ 8) : r.Read8 n = read 8 r n := by
  unfold Reader.Read8
  rw [Nat.mod_eq_of_lt (by omega : n < 256), if_neg (by omega)]

theorem Read16_eq {r : Reader} {n : Nat} (h : n ≤ 16) : r.Read16 n = read 16 r n := by
  unfold Reader.Read16
  rw [Nat.mod_eq_of_lt (by omega : n < 256), if_neg (by omega)]

theorem Read32_eq {r : Reader} {n : Nat} (h : n ≤ 32) : r.Read32 n = read 32 r n := by
  unfold Reader.Read32
  rw [Nat.mod_eq_of_lt (by omega : n < 256), if_neg (by omega)]

theorem Read64_eq {r : Reader} {n : Nat} (h : n ≤ 64) : r.Read64 n = read 64 r n := by
  unfold Reader.Read64
  rw [Nat.mod_eq_of_lt (by omega : n < 256), if_neg (by omega)]

theorem read_op_step {W : Nat} (data : List Nat) (c n v T E : Nat)
    (hb : ByteSeq data) (hW8 : 8 ≤ W) (hW64 : W ≤ 64)
    (hn1 : 1 ≤ n) (hnW : n ≤ W) (hv : v < 2 ^ n)
    (hle : c + (n + T) ≤ 8 * data.length)
    (hE : E < 2 ^ T)
    (henc : bytesToNat data / 2 ^ c % 2 ^ (n + T) = v + E * 2 ^ n) :
    read W { data := data, bitsRead := c } n
      = (Except.ok v, { data := data, bitsRead := c + n }) ∧
    bytesToNat data / 2 ^ (c + n) % 2 ^ T = E := by
  obtain ⟨h1, h2⟩ := enc_step hv hE henc
  constructor
  · rw [read_spec_mk data c n hn1 hnW hW8 hW64 hb,
      if_pos (show c + n ≤ 8 * data.length by omega), h1]
  · have e : bytesToNat data / 2 ^ (c + n) = bytesToNat data / 2 ^ c / 2 ^ n := by
      rw [Nat.div_div_eq_div_mul, ← pow_add]
    rw [e]
    exact h2

theorem readOps_spec : ∀ (ops : List WOp) (data : List Nat) (c : Nat),
    ByteSeq data →
    (∀ op ∈ ops, op.valid) →
    c + totalBits ops ≤ 8 * data.length →
    bytesToNat data / 2 ^ c % 2 ^ totalBits ops = encOps ops →
    readOps { data := data, bitsRead := c } ops = true := by
  intro ops
  induction ops with
  | nil => intro data c _ _ _ _; rfl
  | cons op ops ih =>
    intro data c hb hv hle henc
    have hopv : op.valid := hv op (List.mem_cons_self op ops)
    have hrest : ∀ o ∈ ops, o.valid := fun o ho => hv o (List.mem_cons_of_mem _ ho)
    have hE := encOps_lt ops
    cases op with
    | wbool v =>
      simp only [totalBits, List.map_cons, List.sum_cons, WOp.bits] at hle henc
      simp only [encOps, WOp.value, WOp.bits] at henc
      cases v with
      | true =>
        norm_num at henc
        obtain ⟨hread, hrec⟩ := read_op_step (W := 8) data c 1 1 (totalBits ops)
          (encOps ops) hb (by norm_num) (by norm_num) (by norm_num) (by norm_num)
          (by norm_num) (by simpa [totalBits] using hle) hE (by simpa [totalBits] using henc)
        simp only [readOps, Reader.ReadBool, hread]
        simp only [show decide ((1 : Nat) ≠ 0) = true by norm_num, beq_self_eq_true,
          Bool.true_and]
        exact ih data (c + 1) hb hrest (by simp only [totalBits] at *; omega)
          (by simpa [totalBits] using hrec)
      | false =>
        norm_num at henc
        obtain ⟨hread, hrec⟩ := read_op_step (W := 8) data c 1 0 (totalBits ops)
          (encOps ops) hb (by norm_num) (by norm_num) (by norm_num) (by norm_num)
          (by norm_num) (by simpa [totalBits] using hle) hE (by simpa [totalBits] using henc)
        simp only [readOps, Reader.ReadBool, hread]
        simp only [show decide ((0 : Nat) ≠ 0) = false by norm_num, beq_self_eq_true,
          Bool.true_and]
        exact ih data (c + 1) hb hrest (by simp only [totalBits] at *; omega)
          (by simpa [totalBits] using hrec)
    | w8 v n =>
      simp only [WOp.valid] at hopv
      obtain ⟨hn1, hnW, hvlt⟩ := hopv
      simp only [totalBits, List.map_cons, List.sum_cons, WOp.bits] at hle henc
      simp only [encOps, WOp.value, WOp.bits] at henc
      rw [Nat.mod_eq_of_lt hvlt] at henc
      obtain ⟨hread, hrec⟩ := read_op_step (W := 8) data c n v (totalBits ops)
        (encOps ops) hb (by norm_num) (by norm_num) hn1 hnW hvlt
        (by simpa [totalBits] using hle) hE (by simpa [totalBits] using henc)
      simp only [readOps, Read8_eq hnW, hread, beq_self_eq_true, Bool.true_and]
      exact ih data (c + n) hb hrest (by simp only [totalBits] at *; omega)
        (by simpa [totalBits] using hrec)
    | w16 v n =>
      simp only [WOp.valid] at hopv
      obtain ⟨hn1, hnW, hvlt⟩ := hopv
      simp only [totalBits, List.map_cons, List.sum_cons, WOp.bits] at hle henc
      simp only [encOps, WOp.value, WOp.bits] at henc
      rw [Nat.mod_eq_of_lt hvlt] at henc
      obtain ⟨hread, hrec⟩ := read_op_step (W := 16) data c n v (totalBits ops)
        (encOps ops) hb (by norm_num) (by norm_num) hn1 hnW hvlt
        (by simpa [totalBits] using hle) hE (by simpa [totalBits] using henc)
      simp only [readOps, Read16_eq hnW, hread, beq_self_eq_true, Bool.true_and]
      exact ih data (c + n) hb hrest (by simp only [totalBits] at *; omega)
        (by simpa [totalBits] using hrec)
    | w32 v n =>
      simp only [WOp.valid] at hopv
      obtain ⟨hn1, hnW, hvlt⟩ := hopv
      simp only [totalBits, List.map_cons, List.sum_cons, WOp.bits] at hle henc
      simp only [encOps, WOp.value, WOp.bits] at henc
      rw [Nat.mod_eq_of_lt hvlt] at henc
      obtain ⟨hread, hrec⟩ := read_op_step (W := 32) data c n v (totalBits ops)
        (encOps ops) hb (by norm_num) (by norm_num) hn1 hnW hvlt
        (by simpa [totalBits] using hle) hE (by simpa [totalBits] using henc)
      simp only [readOps, Read32_eq hnW, hread, beq_self_eq_true, Bool.true_and]
      exact ih data (c + n) hb hrest (by simp only [totalBits] at *; omega)
        (by simpa [totalBits] using hrec)
    | w64 v n =>
      simp only [WOp.valid] at hopv
      obtain ⟨hn1, hnW, hvlt⟩ := hopv
      simp only [totalBits, List.map_cons, List.sum_cons, WOp.bits] at hle henc
      simp only [encOps, WOp.value, WOp.bits] at henc
      rw [Nat.mod_eq_of_lt hvlt] at henc
      obtain ⟨hread, hrec⟩ := read_op_step (W := 64) data c n v (totalBits ops)
        (encOps ops) hb (by norm_num) (by norm_num) hn1 hnW hvlt
        (by simpa [totalBits] using hle) hE (by simpa [totalBits] using henc)
      simp only [readOps, Read64_eq hnW, hread, beq_self_eq_true, Bool.true_and]
      exact ih data (c + n) hb hrest (by simp only [totalBits] at *; omega)
        (by simpa [totalBits] using hrec)

theorem readOutcome_read {w : Nat} (r : Reader) (n : Nat)
    (hn1 : 1 ≤ n) (hnw : n ≤ w) (hw8 : 8 ≤ w) (hw64 : w ≤ 64) (hb : ByteSeq r.data) :
    readOutcome r n (read w r n) := by
  rw [read_spec r n hn1 hnw hw8 hw64 hb]
  unfold readOutcome
  by_cases hcond : r.bitsRead + n ≤ 8 * r.data.length
  · rw [if_pos hcond]
    refine ⟨⟨fun _ => hcond, fun _ => ⟨_, rfl⟩⟩, ⟨fun hc => ?_, fun hlt => ?_⟩, ?_⟩
    · simp at hc
    · omega
    · rw [if_pos hcond]
  · rw [if_neg hcond]
    refine ⟨⟨fun hv => ?_, fun hc => absurd hc hcond⟩, ⟨fun _ => by omega, fun _ => rfl⟩, ?_⟩
    · obtain ⟨v, hv⟩ := hv
      simp at hv
    · rw [if_neg hcond]

theorem readOutcome_map {β : Type} (r : Reader) (n : Nat) (p : Except Err Nat × Reader)
    (f : Nat → β) (h : readOutcome r n p) :
    readOutcome r n (match p with
      | (Except.ok v, r1) => (Except.ok (f v), r1)
      | (Except.error e, r1) => (Except.error e, r1)) := by
  rcases p with ⟨res, r1⟩
  obtain ⟨h1, h2, h3⟩ := h
  cases res with
  | ok v =>
    refine ⟨⟨fun _ => h1.mp ⟨v, rfl⟩, fun _ => ⟨f v, rfl⟩⟩, ⟨fun hc => ?_, fun hlt => ?_⟩, h3⟩
    · simp at hc
    · have := h2.mpr hlt
      simp at this
  | error e =>
    show readOutcome r n ((Except.error e : Except Err β), r1)
    have he : ((Except.error e : Except Err β) = Except.error Err.unexpectedEndOfData) ↔
        ((Except.error e : Except Err Nat) = Except.error Err.unexpectedEndOfData) := by
      constructor
      · intro hc
        rw [Except.error.inj hc]
      · intro hc
        rw [Except.error.inj hc]
    refine ⟨?_, he.trans h2, h3⟩
    constructor
    · intro hv
      obtain ⟨v, hv⟩ := hv
      simp at hv
    · intro hc
      obtain ⟨v, hv⟩ := h1.mpr hc
      simp at hv

theorem read_cursor_le {w : Nat} {r : Reader} {n v : Nat} {r2 : Reader}
    (hn1 : 1 ≤ n) (hnw : n ≤ w) (hw8 : 8 ≤ w) (hw64 : w ≤ 64) (hb : ByteSeq r.data)
    (h : read w r n = (Except.ok v, r2)) : r2.bitsRead ≤ 8 * r2.data.length := by
  rw [read_spec r n hn1 hnw hw8 hw64 hb] at h
  by_cases hcond : r.bitsRead + n ≤ 8 * r.data.length
  · rw [if_pos hcond] at h
    have h2 := congrArg Prod.snd h
    simp only [] at h2
    rw [← h2]
    simpa using hcond
  · rw [if_neg hcond] at h
    have h1 := congrArg Prod.fst h
    simp at h1

theorem read_ok_lt {w : Nat} {r : Reader} {n v : Nat} {r2 : Reader}
    (hnw : n ≤ w) (hw8 : 8 ≤ w) (hw64 : w ≤ 64) (hb : ByteSeq r.data)
    (h : read w r n = (Except.ok v, r2)) : v < 2 ^ n := by
  rcases Nat.eq_zero_or_pos n with hn0 | hn1
  · subst hn0
    rw [read_zero] at h
    have h1 := congrArg Prod.fst h
    simp only [] at h1
    have : v = 0 := by
      cases h1
      rfl
    subst this
    simp
  · rw [read_spec r n hn1 hnw hw8 hw64 hb] at h
    by_cases hcond : r.bitsRead + n ≤ 8 * r.data.length
    · rw [if_pos hcond] at h
      have h1 := congrArg Prod.fst h
      simp only [] at h1
      have hv : v = bytesToNat r.data / 2 ^ r.bitsRead % 2 ^ n := by
        cases h1
        rfl
      rw [hv]
      exact Nat.mod_lt _ (Nat.two_pow_pos n)
    · rw [if_neg hcond] at h
      have h1 := congrArg Prod.fst h
      simp at h1

theorem streamBit_eq {data : List Nat} (hb : ByteSeq data) (i : Nat) :
    streamBit data i = bytesToNat data / 2 ^ i % 2 := by
  unfold streamBit
  rw [bytesToNat_getD hb, Nat.shiftRight_eq_div_pow, show (256 : Nat) = 2 ^ 8 by norm_num,
    mod_pow_div_pow (show i % 8 ≤ 8 by omega), Nat.div_div_eq_div_mul, ← pow_add,
    show 8 * (i / 8) + i % 8 = i by omega]
  exact Nat.mod_mod_of_dvd _ (dvd_pow_self 2 (show 8 - i % 8 ≠ 0 by omega))

theorem sticky_frozen (r : ReaderError) (e : Err) (n : Nat) (h : r.err = some e) :
    r.ReadBool = (false, r) ∧ r.Read8 n = (0, r) ∧ r.Read16 n = (0, r) ∧
    r.Read32 n = (0, r) ∧ r.Read64 n = (0, r) := by
  refine ⟨?_, ?_, ?_, ?_, ?_⟩
  · unfold ReaderError.ReadBool
    rw [h]
  · unfold ReaderError.Read8
    rw [h]
  · unfold ReaderError.Read16
    rw [h]
  · unfold ReaderError.Read32
    rw [h]
  · unfold ReaderError.Read64
    rw [h]

theorem srun_frozen (r : ReaderError) (e : Err) (h : r.err = some e) :
    ∀ ops : List SOp, srun r ops = r := by
  intro ops
  induction ops with
  | nil => rfl
  | cons op ops ih =>
    have hstep : sstep r op = r := by
      cases op with
      | sbool =>
        show (r.ReadBool).2 = r
        rw [(sticky_frozen r e 0 h).1]
      | s8 n =>
        show (r.Read8 n).2 = r
        rw [(sticky_frozen r e n h).2.1]
      | s16 n =>
        show (r.Read16 n).2 = r
        rw [(sticky_frozen r e n h).2.2.1]
      | s32 n =>
        show (r.Read32 n).2 = r
        rw [(sticky_frozen r e n h).2.2.2.1]
      | s64 n =>
        show (r.Read64 n).2 = r
        rw [(sticky_frozen r e n h).2.2.2.2]
    show srun (sstep r op) ops = r
    rw [hstep, ih]

/-- C1: Round-trip — for every finite sequence of pairs (value, bitCount)
with each bitCount between 1 and the container width of the operation used
and each value already masked to its low bitCount bits, writing the pairs in
order into a fresh Writer and reading them back in the same order with the
matching read operations and the same bit counts succeeds and returns
exactly the original values. -/
theorem roundtrip_write_read (ops : List WOp) (h : ∀ op ∈ ops, op.valid) :
    readOps (NewReader (wrun NewWriter ops).BitData) ops = true := by
  have hW : ∀ op ∈ ops, op.bits ≤ op.width := by
    intro op ho
    have hv := h op ho
    cases op with
    | wbool v => simp [WOp.bits, WOp.width]
    | w8 v n =>
      simp only [WOp.valid] at hv
      simp only [WOp.bits, WOp.width]
      omega
    | w16 v n =>
      simp only [WOp.valid] at hv
      simp only [WOp.bits, WOp.width]
      omega
    | w32 v n =>
      simp only [WOp.valid] at hv
      simp only [WOp.bits, WOp.width]
      omega
    | w64 v n =>
      simp only [WOp.valid] at hv
      simp only [WOp.bits, WOp.width]
      omega
  obtain ⟨r1, r2, r3, r4⟩ := wrun_spec ops NewWriter hW (by decide) (by decide)
    (by intro b hbm; simp [NewWriter] at hbm)
  simp only [NewWriter, Nat.zero_add] at r1 r2 r3 r4
  have hN : bytesToNat (wrun { data := [], bitsWritten := 0 } ops).data = encOps ops := by
    rw [r3]
    simp [bytesToNat]
  show readOps { data := (wrun { data := [], bitsWritten := 0 } ops).data, bitsRead := 0 }
    ops = true
  apply readOps_spec ops _ 0 r4 h
  · rw [r2]
    omega
  · rw [pow_zero, Nat.div_one, hN]
    exact Nat.mod_eq_of_lt (encOps_lt ops)

/-- Witness for C1 at the date-packing example (5, 4 and 12 bit fields). -/
theorem roundtrip_write_read_witness :
    (∀ op ∈ [WOp.w8 29 5, WOp.w8 6 4, WOp.w16 2748 12], op.valid) ∧
    readOps (NewReader (wrun NewWriter [WOp.w8 29 5, WOp.w8 6 4, WOp.w16 2748 12]).BitData)
      [WOp.w8 29 5, WOp.w8 6 4, WOp.w16 2748 12] = true :=
  ⟨by decide, roundtrip_write_read [WOp.w8 29 5, WOp.w8 6 4, WOp.w16 2748 12] (by decide)⟩

/-- C2: Size law — starting from `NewWriter`, after every sequence of write
operations (each with a bit count within its container width) the byte
length of the buffer exposed by `BitData` equals
`ceil(bitsWritten / 8) = (bitsWritten + 7) / 8`, where `bitsWritten` is the
sum of the bit counts of all writes performed so far (and equals the
Writer's cursor). -/
theorem writer_size_law (ops : List WOp) (h : ∀ op ∈ ops, op.bits ≤ op.width) :
    (wrun NewWriter ops).BitData.length = ((ops.map WOp.bits).sum + 7) / 8 ∧
    (wrun NewWriter ops).bitsWritten = (ops.map WOp.bits).sum := by
  obtain ⟨r1, r2, _, _⟩ := wrun_spec ops NewWriter h (by decide) (by decide)
    (by intro b hbm; simp [NewWriter] at hbm)
  simp only [NewWriter, Nat.zero_add] at r1 r2
  exact ⟨r2, r1⟩

/-- Witness for C2 at the date-packing example: 21 bits, 3 bytes. -/
theorem writer_size_law_witness :
    (∀ op ∈ [WOp.w8 29 5, WOp.w8 6 4, WOp.w16 2748 12], op.bits ≤ op.width) ∧
    ((wrun NewWriter [WOp.w8 29 5, WOp.w8 6 4, WOp.w16 2748 12]).BitData.length
        = (([WOp.w8 29 5, WOp.w8 6 4, WOp.w16 2748 12].map WOp.bits).sum + 7) / 8 ∧
      (wrun NewWriter [WOp.w8 29 5, WOp.w8 6 4, WOp.w16 2748 12]).bitsWritten
        = ([WOp.w8 29 5, WOp.w8 6 4, WOp.w16 2748 12].map WOp.bits).sum) :=
  ⟨by decide, writer_size_law [WOp.w8 29 5, WOp.w8 6 4, WOp.w16 2748 12] (by decide)⟩

/-- C3: End-of-data guard with atomicity — for every Reader over a buffer
of `L` bytes with cursor `c` and every bitCount with `1 ≤ bitCount ≤ W`,
the read operation fails with `unexpectedEndOfData` exactly when fewer than
bitCount bits remain (`c + bitCount > 8 * L`), the cursor is then left
unchanged, and on success the cursor advances by exactly bitCount
(`readOutcome` packages exactly these three statements). -/
theorem reader_end_of_data_guard (r : Reader) (n : Nat) (hb : ByteSeq r.data) :
    (1 ≤ n → n ≤ 8 → readOutcome r n (r.Read8 n)) ∧
    (1 ≤ n → n ≤ 16 → readOutcome r n (r.Read16 n)) ∧
    (1 ≤ n → n ≤ 32 → readOutcome r n (r.Read32 n)) ∧
    (1 ≤ n → n ≤ 64 → readOutcome r n (r.Read64 n)) ∧
    readOutcome r 1 (r.ReadBool) := by
  refine ⟨fun h1 h2 => ?_, fun h1 h2 => ?_, fun h1 h2 => ?_, fun h1 h2 => ?_, ?_⟩
  · rw [Read8_eq h2]
    exact readOutcome_read r n h1 h2 (by norm_num) (by norm_num) hb
  · rw [Read16_eq h2]
    exact readOutcome_read r n h1 h2 (by norm_num) (by norm_num) hb
  · rw [Read32_eq h2]
    exact readOutcome_read r n h1 h2 (by norm_num) (by norm_num) hb
  · rw [Read64_eq h2]
    exact readOutcome_read r n h1 h2 (by norm_num) (by norm_num) hb
  · have hbase := readOutcome_read (w := 8) r 1 (by norm_num) (by norm_num) (by norm_num)
      (by norm_num) hb
    exact readOutcome_map r 1 (read 8 r 1) (fun v => decide (v ≠ 0)) hbase

/-- Witness for C3 over a one-byte buffer with a 4-bit read. -/
theorem reader_end_of_data_guard_witness :
    ByteSeq (NewReader [5]).data ∧
    ((1 ≤ 4 → 4 ≤ 8 → readOutcome (NewReader [5]) 4 ((NewReader [5]).Read8 4)) ∧
      (1 ≤ 4 → 4 ≤ 16 → readOutcome (NewReader [5]) 4 ((NewReader [5]).Read16 4)) ∧
      (1 ≤ 4 → 4 ≤ 32 → readOutcome (NewReader [5]) 4 ((NewReader [5]).Read32 4)) ∧
      (1 ≤ 4 → 4 ≤ 64 → readOutcome (NewReader [5]) 4 ((NewReader [5]).Read64 4)) ∧
      readOutcome (NewReader [5]) 1 ((NewReader [5]).ReadBool)) :=
  ⟨by decide, reader_end_of_data_guard (NewReader [5]) 4 (by decide)⟩

/-- C4: Width-overflow guard — for every Reader state and every byte-valued
bitCount greater than the container width of the operation, the read fails
with `bitCountTooBig` and leaves the reader (hence the cursor) unchanged,
regardless of buffer contents and remaining data. -/
theorem reader_bit_count_guard (r : Reader) (n : Nat) (h256 : n < 256) :
    (8 < n → r.Read8 n = (Except.error Err.bitCountTooBig, r)) ∧
    (16 < n → r.Read16 n = (Except.error Err.bitCountTooBig, r)) ∧
    (32 < n → r.Read32 n = (Except.error Err.bitCountTooBig, r)) ∧
    (64 < n → r.Read64 n = (Except.error Err.bitCountTooBig, r)) := by
  refine ⟨fun h => ?_, fun h => ?_, fun h => ?_, fun h => ?_⟩
  · unfold Reader.Read8
    rw [Nat.mod_eq_of_lt h256, if_pos h]
  · unfold Reader.Read16
    rw [Nat.mod_eq_of_lt h256, if_pos h]
  · unfold Reader.Read32
    rw [Nat.mod_eq_of_lt h256, if_pos h]
  · unfold Reader.Read64
    rw [Nat.mod_eq_of_lt h256, if_pos h]

/-- Witness for C4 at bitCount 100 on an empty buffer. -/
theorem reader_bit_count_guard_witness :
    (100 : Nat) < 256 ∧
    ((8 < 100 → (NewReader []).Read8 100 = (Except.error Err.bitCountTooBig, NewReader [])) ∧
      (16 < 100 → (NewReader []).Read16 100 = (Except.error Err.bitCountTooBig, NewReader [])) ∧
      (32 < 100 → (NewReader []).Read32 100 = (Except.error Err.bitCountTooBig, NewReader [])) ∧
      (64 < 100 → (NewReader []).Read64 100 = (Except.error Err.bitCountTooBig, NewReader []))) :=
  ⟨by decide, reader_bit_count_guard (NewReader []) 100 (by decide)⟩

/-- C5: Mask contract — for every container width `w ∈ {8,16,32,64}` and
every `n ≤ w`, `mask w n` is the value whose low `n` bits are 1 and whose
high bits are 0 (i.e. `2 ^ n - 1`); in particular for `n = w` the result is
the maximal value of the type, not zero. -/
theorem mask_contract (w n : Nat) (_hw : w = 8 ∨ w = 16 ∨ w = 32 ∨ w = 64) (hn : n ≤ w) :
    mask w n = 2 ^ n - 1 ∧ (∀ i, (mask w n).testBit i = decide (i < n)) ∧
    mask w w = 2 ^ w - 1 := by
  have h1 : mask w n = 2 ^ n - 1 := mask_eq_of_le hn
  refine ⟨h1, fun i => ?_, mask_eq_of_le (Nat.le_refl w)⟩
  rw [h1, Nat.testBit_two_pow_sub_one]

/-- Witness for C5 at the boundary case `w = n = 8`. -/
theorem mask_contract_witness :
    ((8 : Nat) = 8 ∨ (8 : Nat) = 16 ∨ (8 : Nat) = 32 ∨ (8 : Nat) = 64) ∧ (8 : Nat) ≤ 8 ∧
    (mask 8 8 = 2 ^ 8 - 1 ∧ (∀ i, (mask 8 8).testBit i = decide (i < 8)) ∧
      mask 8 8 = 2 ^ 8 - 1) :=
  ⟨Or.inl rfl, by decide, mask_contract 8 8 (Or.inl rfl) (by decide)⟩

/-- C6: Sticky freeze — once a `ReaderError` holds a stored error (the
error of its first failing operation), `Error` returns exactly that error,
every read operation returns the container's zero/false value and leaves
the whole state (stored error and wrapped reader, hence the cursor)
unchanged, and therefore along any further sequence of read operations the
state never changes and the reported error remains the first one, even if
later operations would have failed differently. -/
theorem sticky_reader_freeze (r : ReaderError) (e : Err) (n : Nat) (h : r.err = some e) :
    r.Error = some e ∧
    r.ReadBool = (false, r) ∧ r.Read8 n = (0, r) ∧ r.Read16 n = (0, r) ∧
    r.Read32 n = (0, r) ∧ r.Read64 n = (0, r) ∧
    (∀ ops : List SOp, srun r ops = r ∧ (srun r ops).Error = some e) := by
  obtain ⟨f1, f2, f3, f4, f5⟩ := sticky_frozen r e n h
  refine ⟨h, f1, f2, f3, f4, f5, fun ops => ?_⟩
  have hs := srun_frozen r e h ops
  refine ⟨hs, ?_⟩
  rw [hs]
  exact h

/-- Witness for C6: a sticky reader that failed with end-of-data stays
frozen on that error. -/
theorem sticky_reader_freeze_witness :
    (((NewReaderError []).Read8 7).2.err = some Err.unexpectedEndOfData) ∧
    (((NewReaderError []).Read8 7).2.Error = some Err.unexpectedEndOfData ∧
      ((NewReaderError []).Read8 7).2.ReadBool = (false, ((NewReaderError []).Read8 7).2) ∧
      ((NewReaderError []).Read8 7).2.Read8 3 = (0, ((NewReaderError []).Read8 7).2) ∧
      ((NewReaderError []).Read8 7).2.Read16 3 = (0, ((NewReaderError []).Read8 7).2) ∧
      ((NewReaderError []).Read8 7).2.Read32 3 = (0, ((NewReaderError []).Read8 7).2) ∧
      ((NewReaderError []).Read8 7).2.Read64 3 = (0, ((NewReaderError []).Read8 7).2) ∧
      (∀ ops : List SOp, srun (((NewReaderError []).Read8 7).2) ops
          = ((NewReaderError []).Read8 7).2 ∧
        (srun (((NewReaderError []).Read8 7).2) ops).Error
          = some Err.unexpectedEndOfData)) :=
  ⟨by decide, sticky_reader_freeze (((NewReaderError []).Read8 7).2)
    Err.unexpectedEndOfData 3 (by decide)⟩

/-- C7 counterexample: the claim fails for zero-width reads after `Skip`
moved the cursor past the end — on the empty buffer, `Skip 1` then
`Read8 0` succeeds, yet the cursor (1) exceeds the bit length of the buffer
(0). -/
theorem reader_cursor_bound_cex :
    ((NewReader []).Skip 1).Read8 0 = (Except.ok 0, { data := [], bitsRead := 1 }) ∧
    ¬ ((((NewReader []).Skip 1).Read8 0).2.bitsRead
        ≤ 8 * ((((NewReader []).Skip 1).Read8 0).2.data.length)) := by
  decide

/-- C7 (amended): for every Reader over a byte buffer, whenever a read
operation of at least one bit succeeds, the cursor afterwards does not
exceed the bit length `8 * L` of the buffer; a read with bitCount = 0
(which always succeeds) leaves the cursor exactly where it was — so the
original bound holds for every read that consumes bits, but not for
zero-width reads issued after `Skip` moved the cursor past the end. -/
theorem reader_cursor_bound_amended (r : Reader) (n : Nat) (hb : ByteSeq r.data) :
    (∀ v r2, 1 ≤ n → n ≤ 8 → r.Read8 n = (Except.ok v, r2) →
      r2.bitsRead ≤ 8 * r2.data.length) ∧
    (∀ v r2, 1 ≤ n → n ≤ 16 → r.Read16 n = (Except.ok v, r2) →
      r2.bitsRead ≤ 8 * r2.data.length) ∧
    (∀ v r2, 1 ≤ n → n ≤ 32 → r.Read32 n = (Except.ok v, r2) →
      r2.bitsRead ≤ 8 * r2.data.length) ∧
    (∀ v r2, 1 ≤ n → n ≤ 64 → r.Read64 n = (Except.ok v, r2) →
      r2.bitsRead ≤ 8 * r2.data.length) ∧
    (∀ v r2, r.ReadBool = (Except.ok v, r2) → r2.bitsRead ≤ 8 * r2.data.length) ∧
    (r.Read8 0).2 = r ∧ (r.Read16 0).2 = r ∧ (r.Read32 0).2 = r ∧ (r.Read64 0).2 = r := by
  refine ⟨fun v r2 h1 h2 hr => ?_, fun v r2 h1 h2 hr => ?_, fun v r2 h1 h2 hr => ?_,
    fun v r2 h1 h2 hr => ?_, fun v r2 hr => ?_, ?_, ?_, ?_, ?_⟩
  · exact read_cursor_le h1 h2 (by norm_num) (by norm_num) hb (by rwa [Read8_eq h2] at hr)
  · exact read_cursor_le h1 h2 (by norm_num) (by norm_num) hb (by rwa [Read16_eq h2] at hr)
  · exact read_cursor_le h1 h2 (by norm_num) (by norm_num) hb (by rwa [Read32_eq h2] at hr)
  · exact read_cursor_le h1 h2 (by norm_num) (by norm_num) hb (by rwa [Read64_eq h2] at hr)
  · unfold Reader.ReadBool at hr
    rcases hread : read 8 r 1 with ⟨res, rx⟩
    rw [hread] at hr
    cases res with
    | ok v0 =>
      have h2 := congrArg Prod.snd hr
      simp only [] at h2
      rw [← h2]
      exact read_cursor_le (by norm_num) (by norm_num) (by norm_num) (by norm_num) hb hread
    | error e =>
      have h1 := congrArg Prod.fst hr
      simp at h1
  · simp [Reader.Read8, read_zero]
  · simp [Reader.Read16, read_zero]
  · simp [Reader.Read32, read_zero]
  · simp [Reader.Read64, read_zero]

/-- Witness for C7 (amended) over a one-byte buffer with a 3-bit read. -/
theorem reader_cursor_bound_amended_witness :
    ByteSeq (NewReader [5]).data ∧
    ((∀ v r2, 1 ≤ 3 → 3 ≤ 8 → (NewReader [5]).Read8 3 = (Except.ok v, r2) →
        r2.bitsRead ≤ 8 * r2.data.length) ∧
      (∀ v r2, 1 ≤ 3 → 3 ≤ 16 → (NewReader [5]).Read16 3 = (Except.ok v, r2) →
        r2.bitsRead ≤ 8 * r2.data.length) ∧
      (∀ v r2, 1 ≤ 3 → 3 ≤ 32 → (NewReader [5]).Read32 3 = (Except.ok v, r2) →
        r2.bitsRead ≤ 8 * r2.data.length) ∧
      (∀ v r2, 1 ≤ 3 → 3 ≤ 64 → (NewReader [5]).Read64 3 = (Except.ok v, r2) →
        r2.bitsRead ≤ 8 * r2.data.length) ∧
      (∀ v r2, (NewReader [5]).ReadBool = (Except.ok v, r2) →
        r2.bitsRead ≤ 8 * r2.data.length) ∧
      ((NewReader [5]).Read8 0).2 = NewReader [5] ∧
      ((NewReader [5]).Read16 0).2 = NewReader [5] ∧
      ((NewReader [5]).Read32 0).2 = NewReader [5] ∧
      ((NewReader [5]).Read64 0).2 = NewReader [5]) :=
  ⟨by decide, reader_cursor_bound_amended (NewReader [5]) 3 (by decide)⟩

/-- C8: Trailing padding bits are zero — after every sequence of write
operations on a fresh Writer (each bit count within its container width),
every bit of the produced byte sequence at a stream position at or beyond
`bitsWritten` — in particular every unused high bit of the final byte — is
zero. -/
theorem trailing_padding_zero (ops : List WOp) (h : ∀ op ∈ ops, op.bits ≤ op.width) :
    ∀ i, (wrun NewWriter ops).bitsWritten ≤ i →
      streamBit ((wrun NewWriter ops).BitData) i = 0 := by
  obtain ⟨r1, r2, r3, r4⟩ := wrun_spec ops NewWriter h (by decide) (by decide)
    (by intro b hbm; simp [NewWriter] at hbm)
  intro i hi
  have hN : bytesToNat (wrun NewWriter ops).data < 2 ^ (wrun NewWriter ops).bitsWritten := by
    rw [r3, r1]
    simp only [NewWriter, Nat.zero_add]
    have hz : bytesToNat [] = 0 := rfl
    rw [hz, pow_zero, Nat.mul_one, Nat.zero_add]
    exact encOps_lt ops
  show streamBit (wrun NewWriter ops).data i = 0
  rw [streamBit_eq r4 i]
  rw [Nat.div_eq_of_lt
    (Nat.lt_of_lt_of_le hN (Nat.pow_le_pow_right (by norm_num) hi))]

/-- Witness for C8 at the date-packing example: the three bits above
position 21 are padding and read as zero. -/
theorem trailing_padding_zero_witness :
    (∀ op ∈ [WOp.w8 29 5, WOp.w8 6 4, WOp.w16 2748 12], op.bits ≤ op.width) ∧
    (∀ i, (wrun NewWriter [WOp.w8 29 5, WOp.w8 6 4, WOp.w16 2748 12]).bitsWritten ≤ i →
      streamBit ((wrun NewWriter [WOp.w8 29 5, WOp.w8 6 4, WOp.w16 2748 12]).BitData) i = 0) :=
  ⟨by decide, trailing_padding_zero [WOp.w8 29 5, WOp.w8 6 4, WOp.w16 2748 12] (by decide)⟩

/-- C9: Zero-width no-op — for every Writer state, a write of 0 bits (any
container width, any value) leaves the Writer (buffer and cursor)
unchanged; for every Reader state, a read of 0 bits returns the
container's zero value with no error and leaves the reader (cursor)
unchanged. -/
theorem zero_width_noop (w : Nat) (wr : Writer) (r : Reader) (v : Nat) :
    wr.Write8 v 0 = wr ∧ wr.Write16 v 0 = wr ∧ wr.Write32 v 0 = wr ∧ wr.Write64 v 0 = wr ∧
    write w wr v 0 = wr ∧
    r.Read8 0 = (Except.ok 0, r) ∧ r.Read16 0 = (Except.ok 0, r) ∧
    r.Read32 0 = (Except.ok 0, r) ∧ r.Read64 0 = (Except.ok 0, r) ∧
    read w r 0 = (Except.ok 0, r) := by
  refine ⟨by simp [Writer.Write8, write], by simp [Writer.Write16, write],
    by simp [Writer.Write32, write], by simp [Writer.Write64, write], by simp [write],
    by simp [Reader.Read8, read], by simp [Reader.Read16, read],
    by simp [Reader.Read32, read], by simp [Reader.Read64, read], read_zero r⟩

/-- C10: Read results are always masked — for every Reader over an
arbitrary byte sequence, every cursor position and every bitCount at most
the container width, whenever the read succeeds the returned value is
strictly below `2 ^ bitCount` (all bits above position bitCount-1 are
zero), regardless of the surrounding buffer contents. -/
theorem read_result_masked (r : Reader) (n : Nat) (hb : ByteSeq r.data) :
    (∀ v r2, n ≤ 8 → r.Read8 n = (Except.ok v, r2) → v < 2 ^ n) ∧
    (∀ v r2, n ≤ 16 → r.Read16 n = (Except.ok v, r2) → v < 2 ^ n) ∧
    (∀ v r2, n ≤ 32 → r.Read32 n = (Except.ok v, r2) → v < 2 ^ n) ∧
    (∀ v r2, n ≤ 64 → r.Read64 n = (Except.ok v, r2) → v < 2 ^ n) := by
  refine ⟨fun v r2 hn hr => ?_, fun v r2 hn hr => ?_, fun v r2 hn hr => ?_,
    fun v r2 hn hr => ?_⟩
  · exact read_ok_lt hn (by norm_num) (by norm_num) hb (by rwa [Read8_eq hn] at hr)
  · exact read_ok_lt hn (by norm_num) (by norm_num) hb (by rwa [Read16_eq hn] at hr)
  · exact read_ok_lt hn (by norm_num) (by norm_num) hb (by rwa [Read32_eq hn] at hr)
  · exact read_ok_lt hn (by norm_num) (by norm_num) hb (by rwa [Read64_eq hn] at hr)

/-- Witness for C10 over an all-ones byte with a misaligned context and a
3-bit read. -/
theorem read_result_masked_witness :
    ByteSeq (NewReader [255]).data ∧
    ((∀ v r2, 3 ≤ 8 → (NewReader [255]).Read8 3 = (Except.ok v, r2) → v < 2 ^ 3) ∧
      (∀ v r2, 3 ≤ 16 → (NewReader [255]).Read16 3 = (Except.ok v, r2) → v < 2 ^ 3) ∧
      (∀ v r2, 3 ≤ 32 → (NewReader [255]).Read32 3 = (Except.ok v, r2) → v < 2 ^ 3) ∧
      (∀ v r2, 3 ≤ 64 → (NewReader [255]).Read64 3 = (Except.ok v, r2) → v < 2 ^ 3)) :=
  ⟨by decide, read_result_masked (NewReader [255]) 3 (by decide)⟩

end BitData
